import Mathlib

/-!
Formal model of the screenshot service's three core collaborators:
the fingerprint disk cache (`cache-manager`), the per-client fixed-window
rate limiter (`rate-limiter`), and the asynchronous job queue
(`job-queue`), together with the URL validation and parameter
sanitization helpers (`security`).

Modelling conventions:
* JavaScript `Map`s become association lists in insertion order
  (`Map.set` on an existing key updates the value in place, otherwise
  appends; `Map.delete` removes the unique binding).
* JavaScript numbers that the code only ever uses as integers
  (timestamps, byte sizes, pixel dimensions) become `Int`/`Nat`;
  the `delay` parameter, which may be fractional, becomes `ℚ`.
  Possibly-absent (`undefined`/`NaN`) inputs become `Option` values,
  so that the `Number(x) || d` and `parseInt(x) || d` coercions can be
  modelled faithfully (both treat `NaN` and `0` as falsy).
* The SHA-256 hex digest of `JSON.stringify(normalizedParams)` used as
  the cache key is a deterministic, injective-up-to-hash-collision
  function of the normalized parameter record; no claim relies on hash
  collisions or on their absence, so the model uses the normalized
  record itself as the key.
* The filesystem visible to the cache is a map from file paths to byte
  lists; a `readFile`/`unlink` on an absent path fails, exactly the
  failure the source's try/catch blocks handle.
* Wall-clock time (`Date.now()`) is passed in explicitly.
-/

/-! ### Association-list maps (JavaScript `Map` semantics) -/

/-- Lookup in a JavaScript-`Map`-like association list (first binding wins). -/
def lookupA {κ β : Type} [DecidableEq κ] (k : κ) : List (κ × β) → Option β
  | [] => none
  | (k1, v) :: rest => if k1 = k then some v else lookupA k rest

/-- `Map.set`: replace the existing binding in place, else append. -/
def insertA {κ β : Type} [DecidableEq κ] (k : κ) (v : β) : List (κ × β) → List (κ × β)
  | [] => [(k, v)]
  | (k1, v1) :: rest => if k1 = k then (k, v) :: rest else (k1, v1) :: insertA k v rest

/-- `Map.delete`: remove the binding for `k` (no-op when absent). -/
def eraseA {κ β : Type} [DecidableEq κ] (k : κ) : List (κ × β) → List (κ × β)
  | [] => []
  | (k1, v1) :: rest => if k1 = k then rest else (k1, v1) :: eraseA k rest

/-! ### JavaScript coercion helpers -/

/-- `s.toLowerCase()`, computed character-wise (kernel-reducible
replacement for `String.toLower`). -/
def jsToLower (s : String) : String := String.mk (s.toList.map Char.toLower)

/-- Leading- and trailing-whitespace removal on a character list. -/
def trimL (l : List Char) : List Char :=
  ((l.dropWhile Char.isWhitespace).reverse.dropWhile Char.isWhitespace).reverse

/-- `s.trim()` (kernel-reducible replacement for `String.trim`). -/
def jsTrim (s : String) : String := String.mk (trimL s.toList)

/-- `Number(x) || d` where `x : ℚ` may be absent (`undefined`/`NaN` ↦ `none`):
both `NaN` and `0` are falsy and fall back to the default. -/
def jsNumQ (x : Option ℚ) (d : ℚ) : ℚ :=
  match x with
  | none => d
  | some q => if q = 0 then d else q

/-- `parseInt(String(x)) || d` with `x` an integer field that may be absent. -/
def jsIntOr (x : Option Int) (d : Int) : Int :=
  match x with
  | none => d
  | some n => if n = 0 then d else n

/-- `parseFloat(String(x)) || d` with `x` possibly absent. -/
def jsRatOr (x : Option ℚ) (d : ℚ) : ℚ :=
  match x with
  | none => d
  | some q => if q = 0 then d else q

/-- `String(format).toLowerCase() || "png"`: an absent field stringifies to
the (truthy) text `"undefined"`; an empty string falls back to `"png"`. -/
def jsFormatString (format : Option String) : String :=
  match format with
  | none => "undefined"
  | some s => if jsToLower s = "" then "png" else jsToLower s

/-- Decidable list-of-characters prefix test (for `String.startsWith`-style
checks and the anchored regexes of `validateUrl`). -/
def hasPrefixL : List Char → List Char → Bool
  | _, [] => true
  | [], _ :: _ => false
  | c :: cs, d :: ds => c = d && hasPrefixL cs ds

/-- Decidable substring test on character lists (JavaScript `includes`). -/
def hasInfixL : List Char → List Char → Bool
  | [], p => p.isEmpty
  | c :: cs, p => hasPrefixL (c :: cs) p || hasInfixL cs p

/-- JavaScript `s.includes(sub)`. -/
def jsIncludes (s sub : String) : Bool := hasInfixL s.toList sub.toList

/-- JavaScript `s.startsWith(p)` / regex `^p`. -/
def jsStartsWith (s p : String) : Bool := hasPrefixL s.toList p.toList

/-! ### Fingerprint cache (`CacheManager`) -/

/-- The `params: any` argument the cache receives, with the fields
`generateCacheKey` and `set` actually read. `fullPage` is stored after
the `Boolean(...)` coercion; numeric fields are `none` when absent. -/
structure CacheParams where
  fullPage : Bool
  width : Option ℚ
  height : Option ℚ
  format : Option String
  delay : Option ℚ
deriving DecidableEq

/-- The normalized parameter record built inside `generateCacheKey`.
The source hashes `JSON.stringify` of exactly this record; the model
uses the record itself as the cache key (see the header comment). -/
structure NormalizedParams where
  url : String
  fullPage : Bool
  width : ℚ
  height : ℚ
  format : String
  delay : ℚ
deriving DecidableEq

/-- `CacheManager.generateCacheKey`: lower-case and trim the URL, force
width/height to the sentinel `0` when `fullPage` is set, default absent
numeric fields, lower-case the format with fallback `"png"`. -/
def generateCacheKey (url : String) (p : CacheParams) : NormalizedParams :=
  { url := jsTrim (jsToLower url)
    fullPage := p.fullPage
    width := if p.fullPage then 0 else jsNumQ p.width 1280
    height := if p.fullPage then 0 else jsNumQ p.height 800
    format := jsFormatString p.format
    delay := jsNumQ p.delay 0 }

/-- A cache file path: `${cacheDir}/${key}.${format}` in the source,
determined by the key and the declared format. -/
abbrev CacheFilePath := NormalizedParams × String

/-- Image blobs as byte lists. -/
abbrev Bytes := List Nat

/-- `CacheManager.getFilePath`. -/
def getFilePath (key : NormalizedParams) (format : String) : CacheFilePath :=
  (key, format)

/-- The metadata block of a cache entry. -/
structure CacheMeta where
  url : String
  params : CacheParams
  format : String
  createdAt : Int
  lastAccessed : Int
  size : Nat
deriving DecidableEq

/-- An in-memory index entry of the cache. -/
structure CacheEntry where
  key : NormalizedParams
  filePath : CacheFilePath
  metadata : CacheMeta
deriving DecidableEq

/-- The cache manager's state: in-memory index, the backing directory
contents, and the configured limits. -/
structure CacheState where
  cache : List (NormalizedParams × CacheEntry)
  disk : List (CacheFilePath × Bytes)
  maxCacheSize : Nat
  maxCacheAge : Int
deriving DecidableEq

/-- Aggregate tracked size of the index (the `reduce` in `enforceSize`
and `getStats`). -/
def totalSize (cache : List (NormalizedParams × CacheEntry)) : Nat :=
  (cache.map (fun kv => kv.2.metadata.size)).sum

/-- `CacheManager.delete`: remove the index entry and unlink the backing
file. The index entry is removed even when the unlink fails (absent
path); `eraseA` on an absent path is a no-op, which models exactly that
tolerated failure. -/
def deleteKey (st : CacheState) (key : NormalizedParams) : CacheState :=
  match lookupA key st.cache with
  | none => st
  | some entry =>
    { st with cache := eraseA key st.cache, disk := eraseA entry.filePath st.disk }

/-- Insert an entry into a list sorted ascending by `lastAccessed`,
before any strictly later entry (stable for the original order). -/
def insertSorted (e : CacheEntry) : List CacheEntry → List CacheEntry
  | [] => [e]
  | a :: as =>
    if e.metadata.lastAccessed ≤ a.metadata.lastAccessed then e :: a :: as
    else a :: insertSorted e as

/-- The `entries.sort((a, b) => a.metadata.lastAccessed - b.metadata.lastAccessed)`
of `enforceSize`: a stable ascending sort by last-access time. -/
def sortByLastAccessed : List CacheEntry → List CacheEntry
  | [] => []
  | a :: as => insertSorted a (sortByLastAccessed as)

/-- The eviction loop of `enforceSize`: walk the entries oldest-access
first, stopping as soon as the running size is at most 80% of the
maximum (the comparison `currentSize ≤ maxCacheSize * 0.8` is modelled
exactly as `currentSize * 5 ≤ maxCacheSize * 4`). -/
def evictLoop : CacheState → List CacheEntry → Int → CacheState
  | st, [], _ => st
  | st, e :: rest, currentSize =>
    if currentSize * 5 ≤ (st.maxCacheSize : Int) * 4 then st
    else evictLoop (deleteKey st e.key) rest (currentSize - (e.metadata.size : Int))

/-- `CacheManager.enforceSize`. -/
def enforceSize (st : CacheState) : CacheState :=
  let tot := totalSize st.cache
  if tot ≤ st.maxCacheSize then st
  else evictLoop st (sortByLastAccessed (st.cache.map Prod.snd)) (tot : Int)

/-- The insertion phase of `CacheManager.set`: write the blob to its
path (the model's disk write always succeeds; on a write failure the
source registers nothing, a path no claim exercises), stat it for the
exact size, and insert/overwrite the index entry. -/
def setRaw (st : CacheState) (now : Int) (url : String) (p : CacheParams)
    (buffer : Bytes) : CacheState :=
  let key := generateCacheKey url p
  let format := jsFormatString p.format
  let filePath := getFilePath key format
  { st with
      disk := insertA filePath buffer st.disk
      cache := insertA key
        { key := key
          filePath := filePath
          metadata :=
            { url := url, params := p, format := format
              createdAt := now, lastAccessed := now, size := buffer.length } }
        st.cache }

/-- `CacheManager.set`: insert, then trigger size enforcement. -/
def CacheManager.set (st : CacheState) (now : Int) (url : String) (p : CacheParams)
    (buffer : Bytes) : CacheState :=
  enforceSize (setRaw st now url p buffer)

/-- The hit path's `entry.metadata.lastAccessed = now` update followed by
`this.cache.set(key, entry)`. -/
def touchEntry (e : CacheEntry) (now : Int) : CacheEntry :=
  { e with metadata := { e.metadata with lastAccessed := now } }

/-- The cache state after the `lastAccessed` touch of a hit. -/
def touchState (st : CacheState) (key : NormalizedParams) (e : CacheEntry)
    (now : Int) : CacheState :=
  { st with cache := insertA key (touchEntry e now) st.cache }

/-- `CacheManager.get`: compute the key, look up the index; absent on a
missing entry; evict and miss when the entry's age exceeds the maximum;
otherwise touch `lastAccessed`, then read the backing file, evicting and
missing when the read fails. -/
def CacheManager.get (st : CacheState) (now : Int) (url : String) (p : CacheParams) :
    Option Bytes × CacheState :=
  let key := generateCacheKey url p
  match lookupA key st.cache with
  | none => (none, st)
  | some entry =>
    if now - entry.metadata.createdAt > st.maxCacheAge then
      (none, deleteKey st key)
    else
      let st1 := touchState st key entry now
      match lookupA entry.filePath st1.disk with
      | some buffer => (some buffer, st1)
      | none => (none, deleteKey st1 key)

/-- Well-formedness of the cache index: distinct keys, and each entry's
stored `key` field agrees with its map key (true of every entry the code
ever inserts). -/
def CacheWF (st : CacheState) : Prop :=
  (st.cache.map Prod.fst).Nodup ∧ ∀ kv ∈ st.cache, kv.2.key = kv.1

/-! ### Rate limiter (`RateLimiter`) -/

/-- A per-client window: current count and window reset timestamp. -/
structure RateLimitEntry where
  count : Nat
  resetTime : Int
deriving DecidableEq

/-- The result record of `checkLimit`. -/
structure RateLimitResult where
  allowed : Bool
  remaining : Nat
  resetTime : Int
deriving DecidableEq

/-- The limiter's window map, keyed by client identifier. -/
abbrev RLState := List (String × RateLimitEntry)

/-- `RateLimiter.checkLimit` for a resolved client identifier. The
source's single `!entry || now > entry.resetTime` test is split into the
`none` match arm and the first `if`, with identical results. -/
def checkLimit (maxRequests : Nat) (windowMs : Int) (st : RLState)
    (clientIP : String) (now : Int) : RateLimitResult × RLState :=
  match lookupA clientIP st with
  | none =>
    let resetTime := now + windowMs
    (⟨true, maxRequests - 1, resetTime⟩, insertA clientIP ⟨1, resetTime⟩ st)
  | some entry =>
    if now > entry.resetTime then
      let resetTime := now + windowMs
      (⟨true, maxRequests - 1, resetTime⟩, insertA clientIP ⟨1, resetTime⟩ st)
    else if entry.count ≥ maxRequests then
      (⟨false, 0, entry.resetTime⟩, st)
    else
      (⟨true, maxRequests - (entry.count + 1), entry.resetTime⟩,
       insertA clientIP ⟨entry.count + 1, entry.resetTime⟩ st)

/-- A sequence of `checkLimit` calls by one client at the given times,
threading the limiter state. -/
def callSeq (maxRequests : Nat) (windowMs : Int) :
    RLState → String → List Int → List RateLimitResult × RLState
  | st, _, [] => ([], st)
  | st, client, t :: ts =>
    let r := checkLimit maxRequests windowMs st client t
    let rest := callSeq maxRequests windowMs r.2 client ts
    (r.1 :: rest.1, rest.2)

/-! ### URL validation and parameter sanitization (`security`) -/

/-- The scheme/host projection of the platform URL parser.
Modelled environment primitive: `new URL(...)` is a runtime builtin, not
repository code; this model covers the scheme and host extraction for
the URL shapes `validateUrl` distinguishes (absolute URLs with an
optional `//` authority), lower-casing both parts as the platform does.
Userinfo, ports, and host syntax validation are not modelled. -/
structure ParsedUrl where
  protocol : String
  hostname : String
deriving DecidableEq

/-- Characters that may appear in a URL scheme after the first letter. -/
def isSchemeChar (c : Char) : Bool :=
  c.isAlpha || c.isDigit || c = '+' || c = '-' || c = '.'

/-- Split `scheme:rest`, requiring a nonempty scheme that starts with a
letter. -/
def schemeSplit : List Char → List Char → Option (List Char × List Char)
  | _, [] => none
  | acc, c :: cs =>
    if c = ':' then (if acc.isEmpty then none else some (acc.reverse, cs))
    else if isSchemeChar c then schemeSplit (c :: acc) cs
    else none

/-- Schemes the URL standard treats as special (they always carry a
host; `file:` may have an empty one). -/
def specialSchemes : List String := ["http", "https", "ws", "wss", "ftp", "file"]

/-- Characters ending the host portion of an authority. -/
def isHostEnd (c : Char) : Bool :=
  c = '/' || c = '\\' || c = '?' || c = '#' || c = ':'

/-- Model of `new URL(url)` restricted to its `protocol`/`hostname`
projection (see `ParsedUrl`). -/
def parseUrl (url : String) : Option ParsedUrl :=
  match schemeSplit [] (jsTrim url).toList with
  | none => none
  | some (schemeChars, rest) =>
    match schemeChars with
    | [] => none
    | c0 :: _ =>
      if ¬ c0.isAlpha then none
      else
        let scheme := jsToLower (String.mk schemeChars)
        if scheme ∈ specialSchemes then
          let afterSlashes := rest.dropWhile (fun c => c = '/' || c = '\\')
          let host := afterSlashes.takeWhile (fun c => ¬ isHostEnd c)
          if host.isEmpty ∧ scheme ≠ "file" then none
          else some ⟨scheme ++ ":", jsToLower (String.mk host)⟩
        else
          match rest with
          | '/' :: '/' :: after =>
            let host := after.takeWhile (fun c => ¬ isHostEnd c)
            some ⟨scheme ++ ":", jsToLower (String.mk host)⟩
          | _ => some ⟨scheme ++ ":", ""⟩

/-- The `{ valid, error? }` record `validateUrl` returns. -/
structure UrlValidation where
  valid : Bool
  error : Option String
deriving DecidableEq

/-- Hostnames blocked by exact comparison. -/
def blockedExact : List String := ["localhost", "127.0.0.1", "0.0.0.0", "::1"]

/-- Hostname prefixes blocked by the anchored regexes: private IPv4
ranges (the `/^172\.(1[6-9]|2[0-9]|3[01])\./` alternation spelled out),
link-local, private IPv6, and multicast ranges. -/
def blockedPrefixes : List String :=
  ["192.168.", "10.", "169.254.", "fe80:", "fc00:", "fd00:", "224.", "ff00:",
   "172.16.", "172.17.", "172.18.", "172.19.", "172.20.", "172.21.", "172.22.",
   "172.23.", "172.24.", "172.25.", "172.26.", "172.27.", "172.28.", "172.29.",
   "172.30.", "172.31."]

/-- Domains rejected when they occur anywhere in the hostname. -/
def suspiciousDomains : List String :=
  ["bit.ly", "tinyurl.com", "t.co", "goo.gl", "ow.ly", "short.link"]

/-- Case-insensitive pseudo-protocol patterns rejected anywhere in the
raw URL string. -/
def suspiciousPatterns : List String :=
  ["javascript:", "data:", "vbscript:", "file:", "ftp:"]

/-- `validateUrl` from `security`: parse, then check protocol, blocked
hosts, URL-shortener domains, and embedded pseudo-protocols, in the
source's order. -/
def validateUrl (url : String) : UrlValidation :=
  match parseUrl url with
  | none => ⟨false, some "Invalid URL format"⟩
  | some parsedUrl =>
    let hostname := jsToLower parsedUrl.hostname
    if parsedUrl.protocol ≠ "http:" ∧ parsedUrl.protocol ≠ "https:" then
      ⟨false, some "Only HTTP and HTTPS protocols are allowed"⟩
    else if blockedExact.any (fun pat => hostname = pat)
        || blockedPrefixes.any (fun pat => jsStartsWith hostname pat) then
      ⟨false, some "Local and private network addresses are not allowed"⟩
    else if suspiciousDomains.any (fun d => jsIncludes hostname d) then
      ⟨false, some "URL shorteners and suspicious domains are not allowed"⟩
    else if suspiciousPatterns.any (fun pat => jsIncludes (jsToLower url) pat) then
      ⟨false, some "Suspicious URL pattern detected"⟩
    else ⟨true, none⟩

/-- The closed output-format enumeration. -/
inductive ImageFormat
  | png
  | jpeg
  | webp
  | avif
  | bmp
deriving DecidableEq

/-- Lower-case name of a format. -/
def formatToString : ImageFormat → String
  | .png => "png"
  | .jpeg => "jpeg"
  | .webp => "webp"
  | .avif => "avif"
  | .bmp => "bmp"

/-- The raw request body `createJob` receives, with the fields
`validateUrl` and `sanitizeScreenshotParams` read. `fullPage` is stored
after the `Boolean(...)` coercion; absent numerics are `none`. -/
structure RawJobParams where
  url : String
  fullPage : Bool
  width : Option Int
  height : Option Int
  format : Option String
  delay : Option ℚ
deriving DecidableEq

/-- The sanitized, clamped capture request. -/
structure SanitizedParams where
  url : String
  fullPage : Bool
  width : Int
  height : Int
  format : ImageFormat
  delay : ℚ
deriving DecidableEq

/-- `Math.min(Math.max(x, lo), hi)`. -/
def jsClamp (x lo hi : Int) : Int := min (max x lo) hi

/-- `Math.min(Math.max(x, lo), hi)` over rationals. -/
def jsClampQ (x lo hi : ℚ) : ℚ := min (max x lo) hi

/-- `sanitizeScreenshotParams` from `security`: trim the URL, clamp
width to [320, 3840], height to [240, 2160], delay to [0, 10], and
restrict the format to the closed set with default `png`. -/
def sanitizeScreenshotParams (p : RawJobParams) : SanitizedParams :=
  let formatStr := match p.format with
    | none => "undefined"
    | some s => jsToLower s
  let validFormat : ImageFormat :=
    if formatStr = "jpeg" ∨ formatStr = "jpg" then .jpeg
    else if formatStr = "webp" then .webp
    else if formatStr = "avif" then .avif
    else if formatStr = "bmp" then .bmp
    else .png
  { url := jsTrim p.url
    fullPage := p.fullPage
    width := jsClamp (jsIntOr p.width 1280) 320 3840
    height := jsClamp (jsIntOr p.height 800) 240 2160
    format := validFormat
    delay := jsClampQ (jsRatOr p.delay 0) 0 10 }

/-! ### Job queue (`JobQueue`) -/

/-- The four-state job lifecycle. -/
inductive JobStatus
  | pending
  | processing
  | completed
  | failed
deriving DecidableEq

/-- Whether a status is terminal. -/
def isTerminal : JobStatus → Bool
  | .completed => true
  | .failed => true
  | _ => false

/-- A populated job result. The source formats `timestamp` as an ISO
string of the completion instant; the model stores the instant. -/
structure JobResult where
  data : String
  format : String
  timestamp : Int
  fromCache : Bool
deriving DecidableEq

/-- A tracked job record. -/
structure ScreenshotJob where
  id : String
  status : JobStatus
  params : SanitizedParams
  result : Option JobResult
  error : Option String
  createdAt : Int
  completedAt : Option Int
deriving DecidableEq

/-- The queue's state. `current` is the job identifier the single worker
loop is executing between its dequeue and its terminal write (the loop's
local `jobId` variable); `none` between iterations. -/
structure JobQueueState where
  jobs : List (String × ScreenshotJob)
  processingQueue : List String
  isProcessing : Bool
  current : Option String
deriving DecidableEq

/-- The fresh queue. -/
def initQueueState : JobQueueState :=
  { jobs := [], processingQueue := [], isProcessing := false, current := none }

/-- The `{ jobId, error? }` record `createJob` returns. -/
structure CreateJobResult where
  jobId : String
  error : Option String
deriving DecidableEq

/-- `JobQueue.createJob`: validate the URL, sanitize, reject an empty
sanitized URL; on success register a fresh pending job and enqueue its
identifier. The generated identifier (`Date.now()` plus randomness) is
passed in as `newId`. Kicking the worker loop is modelled by the
separate `QueueStep` transitions. -/
def createJob (st : JobQueueState) (now : Int) (newId : String)
    (params : RawJobParams) : CreateJobResult × JobQueueState :=
  let urlValidation := validateUrl params.url
  if urlValidation.valid = false then
    (⟨"", urlValidation.error⟩, st)
  else
    let sanitizedParams := sanitizeScreenshotParams params
    if sanitizedParams.url = "" then
      (⟨"", some "URL is required"⟩, st)
    else
      let job : ScreenshotJob :=
        { id := newId, status := .pending, params := sanitizedParams
          result := none, error := none, createdAt := now, completedAt := none }
      (⟨newId, none⟩,
       { st with jobs := insertA newId job st.jobs
                 processingQueue := st.processingQueue ++ [newId] })

/-- `JobQueue.getJob`: `this.jobs.get(jobId) || null`, no mutation. -/
def JobQueue.getJob (st : JobQueueState) (jobId : String) : Option ScreenshotJob :=
  lookupA jobId st.jobs

/-- Outcome of one invocation of the capture port (the headless-browser
collaborator): bytes, or a thrown error's message. -/
inductive CaptureResult
  | success (bytes : Bytes)
  | failure (message : String)
deriving DecidableEq

/-- The bounded retry loop around `captureScreenshot`, driven by an
oracle giving the outcome of each attempt. `remaining` is the number of
attempts still allowed (`maxRetries + 1 - retryCount` in the source;
callers pass at least 1, the `0` case is unreachable). Returns the
outcome, the number of attempts made, and the list of inter-attempt
waits in milliseconds (`setTimeout(..., 2000)` before each retry). -/
def attemptCapture (capture : Nat → CaptureResult) :
    Nat → Nat → Except String Bytes × Nat × List Int
  | _, 0 => (Except.error "Failed to capture screenshot", 0, [])
  | attempt, remaining + 1 =>
    match capture attempt with
    | .success b => (Except.ok b, 1, [])
    | .failure msg =>
      if remaining = 0 then (Except.error msg, 1, [])
      else
        let rest := attemptCapture capture (attempt + 1) remaining
        (rest.1, rest.2.1 + 1, 2000 :: rest.2.2)

/-- The successful-completion write of the worker loop: base64-encode,
build the result payload, mark `completed`, stamp `completedAt`. -/
def base64Alphabet : String :=
  "ABCDEFGHIJKLMNOPQRSTUVWXYZabcdefghijklmnopqrstuvwxyz0123456789+/"

/-- Character of the base64 alphabet at a sextet value. -/
def base64Char (n : Nat) : Char := base64Alphabet.toList.getD n '='

/-- Standard base64 of a byte list (`Buffer.toString("base64")`). -/
def base64Encode : List Nat → String
  | [] => ""
  | [a] =>
    String.mk [base64Char (a / 4 % 64), base64Char (a % 4 * 16), '=', '=']
  | [a, b] =>
    String.mk [base64Char (a / 4 % 64), base64Char (a % 4 * 16 + b / 16),
               base64Char (b % 16 * 4), '=']
  | a :: b :: c :: rest =>
    String.mk [base64Char (a / 4 % 64), base64Char (a % 4 * 16 + b / 16),
               base64Char (b % 16 * 4 + c / 64), base64Char (c % 64)]
      ++ base64Encode rest

/-- Transition a processing job to `completed` with a populated result. -/
def completeJob (job : ScreenshotJob) (bytes : Bytes) (fromCache : Bool)
    (now : Int) : ScreenshotJob :=
  { job with
      status := .completed
      result := some
        { data := "data:image/" ++ formatToString job.params.format
            ++ ";base64," ++ base64Encode bytes
          format := formatToString job.params.format
          timestamp := now
          fromCache := fromCache }
      completedAt := some now }

/-- Transition a processing job to `failed` with the error's message
stored verbatim. -/
def failJob (job : ScreenshotJob) (msg : String) (now : Int) : ScreenshotJob :=
  { job with status := .failed, error := some msg, completedAt := some now }

/-- The body of one worker-loop iteration after the job was marked
`processing`: use the cache consultation's outcome (`cacheBytes`); on a
miss run the retry loop (`maxRetries = 2`, so 3 total attempts); succeed
into `completed` or, when retries are exhausted, fail with the final
error. The store of a fresh capture back into the cache is non-fatal
and outside the queue state. Returns the updated job, the number of
capture attempts, and the inter-attempt waits. -/
def processJobBody (cacheBytes : Option Bytes) (capture : Nat → CaptureResult)
    (job : ScreenshotJob) (now : Int) : ScreenshotJob × Nat × List Int :=
  match cacheBytes with
  | some b => (completeJob job b true now, 0, [])
  | none =>
    match attemptCapture capture 0 3 with
    | (Except.ok b, n, ws) => (completeJob job b false now, n, ws)
    | (Except.error msg, n, ws) => (failJob job msg now, n, ws)

/-- `job.completedAt && job.completedAt < cutoff` (the cleanup sweep's
deletion test; an absent `completedAt` is falsy). -/
def completedBefore (completedAt : Option Int) (cutoff : Int) : Bool :=
  match completedAt with
  | none => false
  | some t => t < cutoff

/-- The observable transitions of the job queue at time `now`: job
creation, the worker loop dequeuing a job and marking it `processing`,
the defensive skip of a dequeued identifier with no job record, the
terminal write of the in-flight job, the loop going idle, and the
hourly retention sweep. `create` requires the generated identifier to
be fresh, matching the source's identifier generation. -/
inductive QueueStep : Int → JobQueueState → JobQueueState → Prop
  | create (now : Int) (st : JobQueueState) (newId : String) (params : RawJobParams)
      (hfresh : lookupA newId st.jobs = none) :
      QueueStep now st (createJob st now newId params).2
  | start (now : Int) (st : JobQueueState) (id : String) (rest : List String)
      (job : ScreenshotJob)
      (hq : st.processingQueue = id :: rest)
      (hcur : st.current = none)
      (hjob : lookupA id st.jobs = some job) :
      QueueStep now st
        { st with processingQueue := rest
                  jobs := insertA id { job with status := .processing } st.jobs
                  isProcessing := true
                  current := some id }
  | skip (now : Int) (st : JobQueueState) (id : String) (rest : List String)
      (hq : st.processingQueue = id :: rest)
      (hcur : st.current = none)
      (hjob : lookupA id st.jobs = none) :
      QueueStep now st { st with processingQueue := rest, isProcessing := true }
  | finish (now : Int) (st : JobQueueState) (id : String) (job : ScreenshotJob)
      (cacheBytes : Option Bytes) (capture : Nat → CaptureResult)
      (hcur : st.current = some id)
      (hjob : lookupA id st.jobs = some job) :
      QueueStep now st
        { st with jobs := insertA id (processJobBody cacheBytes capture job now).1 st.jobs
                  current := none }
  | idle (now : Int) (st : JobQueueState)
      (hq : st.processingQueue = [])
      (hcur : st.current = none) :
      QueueStep now st { st with isProcessing := false }
  | sweep (now : Int) (st : JobQueueState) :
      QueueStep now st
        { st with jobs :=
            st.jobs.filter (fun kv => ¬ completedBefore kv.2.completedAt (now - 3600000)) }

/-- States reachable from the fresh queue through `QueueStep`s. -/
inductive QueueReachable : JobQueueState → Prop
  | init : QueueReachable initQueueState
  | step (now : Int) (s s1 : JobQueueState) :
      QueueReachable s → QueueStep now s s1 → QueueReachable s1

/-- The forward status chain: a transition either stands still, or moves
`pending → processing`, or moves `processing` to a terminal state. -/
def StatusAdvances (a b : JobStatus) : Prop :=
  a = b
  ∨ (a = .pending ∧ b = .processing)
  ∨ (a = .processing ∧ (b = .completed ∨ b = .failed))

/-- The queue-state invariant maintained by every transition. -/
structure QueueInv (st : JobQueueState) : Prop where
  keysNodup : (st.jobs.map Prod.fst).Nodup
  queueNodup : st.processingQueue.Nodup
  queuePending : ∀ id ∈ st.processingQueue,
    ∃ j, lookupA id st.jobs = some j ∧ j.status = .pending
  currentProcessing : ∀ id, st.current = some id →
    ∃ j, lookupA id st.jobs = some j ∧ j.status = .processing
  currentNotQueued : ∀ id, st.current = some id → id ∉ st.processingQueue
  completedAtTerminal : ∀ id j, lookupA id st.jobs = some j →
    (j.completedAt ≠ none ↔ isTerminal j.status = true)


/-! ### Concrete fixtures used by the witness theorems -/

/-- A plain `png` cache request. -/
def pngParams : CacheParams := ⟨false, none, none, some "png", none⟩

/-- Its cache key. -/
def sampleKey : NormalizedParams := generateCacheKey "https://a.com" pngParams

/-- A cache entry for `sampleKey` created at time 0 with size 3. -/
def sampleEntry : CacheEntry :=
  ⟨sampleKey, (sampleKey, "png"), ⟨"https://a.com", pngParams, "png", 0, 0, 3⟩⟩

/-- A one-entry cache state (max size 1000 bytes, max age 100 ms) whose
backing file is missing from disk. -/
def sampleCacheState : CacheState := ⟨[(sampleKey, sampleEntry)], [], 1000, 100⟩

/-- A sanitized default capture request for a fixed URL. -/
def sampleSanitized : SanitizedParams :=
  ⟨"https://example.com", false, 1280, 800, ImageFormat.png, 0⟩

/-- A job fixture already marked processing by the worker loop. -/
def sampleJob : ScreenshotJob :=
  ⟨"job1", JobStatus.processing, sampleSanitized, none, none, 0, none⟩

/-- An always-failing capture oracle with distinct messages per attempt. -/
def failingCapture : Nat → CaptureResult :=
  fun i => CaptureResult.failure (if i = 0 then "e0" else if i = 1 then "e1" else "e2")

/-- The message function of `failingCapture`. -/
def failingMsg : Nat → String :=
  fun i => if i = 0 then "e0" else if i = 1 then "e1" else "e2"

/-- A raw createJob body with a disallowed protocol. -/
def ftpParams : RawJobParams := ⟨"ftp://internal", false, none, none, some "png", none⟩

/-- A raw createJob body with a valid URL. -/
def okParams : RawJobParams := ⟨"https://example.com", false, none, none, some "png", none⟩

/-- A completed job record. -/
def jobA : ScreenshotJob :=
  ⟨"job1", JobStatus.completed, sampleSanitized, none, some "boom", 0, some 5⟩

/-- Identical to `jobA` except for the capture parameters (width 999). -/
def jobB : ScreenshotJob :=
  ⟨"job1", JobStatus.completed,
   ⟨"https://example.com", false, 999, 800, ImageFormat.png, 0⟩,
   none, some "boom", 0, some 5⟩

/-- A scheduler state holding `jobA`. -/
def queueA : JobQueueState := ⟨[("job1", jobA)], [], false, none⟩

/-- A scheduler state holding `jobB`. -/
def queueB : JobQueueState := ⟨[("job1", jobB)], [], false, none⟩

/-! ### Association-list lemmas -/

theorem lookupA_insertA_self {κ β : Type} [DecidableEq κ] (k : κ) (v : β)
    (l : List (κ × β)) : lookupA k (insertA k v l) = some v := by
  induction l with
  | nil => simp [insertA, lookupA]
  | cons kv rest ih =>
    obtain ⟨k1, v1⟩ := kv
    by_cases h : k1 = k
    · simp [insertA, h, lookupA]
    · simp [insertA, h, lookupA, ih]

theorem lookupA_insertA_ne {κ β : Type} [DecidableEq κ] (k k1 : κ) (v : β)
    (l : List (κ × β)) (h : k1 ≠ k) :
    lookupA k1 (insertA k v l) = lookupA k1 l := by
  have hne : k ≠ k1 := Ne.symm h
  induction l with
  | nil =>
    simp only [insertA, lookupA]
    rw [if_neg hne]
  | cons kv rest ih =>
    obtain ⟨k2, v2⟩ := kv
    by_cases h2 : k2 = k
    · subst h2
      simp only [insertA, if_pos rfl, lookupA]
      simp only [if_neg hne]
    · simp only [insertA, if_neg h2, lookupA]
      by_cases h3 : k2 = k1
      · rw [if_pos h3, if_pos h3]
      · rw [if_neg h3, if_neg h3, ih]

theorem insertA_insertA_self {κ β : Type} [DecidableEq κ] (k : κ) (v w : β)
    (l : List (κ × β)) : insertA k v (insertA k w l) = insertA k v l := by
  induction l with
  | nil => simp [insertA]
  | cons kv rest ih =>
    obtain ⟨k1, v1⟩ := kv
    by_cases h : k1 = k
    · simp [insertA, h]
    · simp [insertA, h, ih]

theorem mem_of_lookupA_some {κ β : Type} [DecidableEq κ] {k : κ} {v : β}
    {l : List (κ × β)} (h : lookupA k l = some v) : (k, v) ∈ l := by
  induction l with
  | nil => simp [lookupA] at h
  | cons kv rest ih =>
    obtain ⟨k1, v1⟩ := kv
    by_cases h1 : k1 = k
    · subst h1
      simp [lookupA] at h
      simp [h]
    · simp only [lookupA, if_neg h1] at h
      exact List.mem_cons_of_mem _ (ih h)

theorem lookupA_eq_none_iff {κ β : Type} [DecidableEq κ] (k : κ)
    (l : List (κ × β)) : lookupA k l = none ↔ k ∉ l.map Prod.fst := by
  induction l with
  | nil => simp [lookupA]
  | cons kv rest ih =>
    obtain ⟨k1, v1⟩ := kv
    by_cases h1 : k1 = k
    · subst h1
      simp [lookupA]
    · simp only [lookupA, if_neg h1, List.map_cons, List.mem_cons]
      rw [ih]
      constructor
      · rintro hn (rfl | hm)
        · exact h1 rfl
        · exact hn hm
      · intro hn hm
        exact hn (Or.inr hm)

theorem mem_keys_of_lookupA_some {κ β : Type} [DecidableEq κ] {k : κ} {v : β}
    {l : List (κ × β)} (h : lookupA k l = some v) : k ∈ l.map Prod.fst := by
  by_contra hmem
  rw [← lookupA_eq_none_iff] at hmem
  rw [h] at hmem
  cases hmem

theorem mem_keys_insertA {κ β : Type} [DecidableEq κ] (k k1 : κ) (v : β)
    (l : List (κ × β)) :
    k1 ∈ (insertA k v l).map Prod.fst ↔ k1 = k ∨ k1 ∈ l.map Prod.fst := by
  induction l with
  | nil => simp [insertA]
  | cons kv rest ih =>
    obtain ⟨k2, v2⟩ := kv
    by_cases h2 : k2 = k
    · subst h2
      simp [insertA]
    · simp only [insertA, if_neg h2, List.map_cons, List.mem_cons, ih]
      tauto

theorem nodup_keys_insertA {κ β : Type} [DecidableEq κ] (k : κ) (v : β)
    {l : List (κ × β)} (h : (l.map Prod.fst).Nodup) :
    ((insertA k v l).map Prod.fst).Nodup := by
  induction l with
  | nil => simp [insertA]
  | cons kv rest ih =>
    obtain ⟨k1, v1⟩ := kv
    simp only [List.map_cons, List.nodup_cons] at h
    by_cases h1 : k1 = k
    · subst h1
      rw [show insertA k1 v ((k1, v1) :: rest) = (k1, v) :: rest from by
        simp [insertA]]
      simp only [List.map_cons, List.nodup_cons]
      exact h
    · simp only [insertA, if_neg h1, List.map_cons, List.nodup_cons]
      refine ⟨?_, ih h.2⟩
      rw [mem_keys_insertA]
      rintro (rfl | hmem)
      · exact h1 rfl
      · exact h.1 hmem

theorem insertA_of_not_mem {κ β : Type} [DecidableEq κ] {k : κ} (v : β)
    {l : List (κ × β)} (h : k ∉ l.map Prod.fst) :
    insertA k v l = l ++ [(k, v)] := by
  induction l with
  | nil => simp [insertA]
  | cons kv rest ih =>
    obtain ⟨k1, v1⟩ := kv
    simp only [List.map_cons, List.mem_cons] at h
    push_neg at h
    simp only [insertA, if_neg (Ne.symm h.1), List.cons_append]
    rw [ih h.2]

theorem lookupA_of_mem_of_nodup {κ β : Type} [DecidableEq κ] {k : κ} {v : β}
    {l : List (κ × β)} (hnd : (l.map Prod.fst).Nodup) (hmem : (k, v) ∈ l) :
    lookupA k l = some v := by
  induction l with
  | nil => cases hmem
  | cons kv rest ih =>
    obtain ⟨k1, v1⟩ := kv
    simp only [List.map_cons, List.nodup_cons] at hnd
    rcases List.mem_cons.mp hmem with heq | hmem2
    · cases heq
      simp [lookupA]
    · have hk1 : k1 ≠ k := by
        rintro rfl
        exact hnd.1 (List.mem_map_of_mem Prod.fst hmem2)
      simp only [lookupA, if_neg hk1]
      exact ih hnd.2 hmem2

theorem eraseA_sublist {κ β : Type} [DecidableEq κ] (k : κ) (l : List (κ × β)) :
    (eraseA k l).Sublist l := by
  induction l with
  | nil => simp [eraseA]
  | cons kv rest ih =>
    obtain ⟨k1, v1⟩ := kv
    by_cases h1 : k1 = k
    · simp only [eraseA, if_pos h1]
      exact (List.sublist_cons_self _ _)
    · simp only [eraseA, if_neg h1]
      exact ih.cons₂ _

theorem nodup_keys_eraseA {κ β : Type} [DecidableEq κ] (k : κ)
    {l : List (κ × β)} (h : (l.map Prod.fst).Nodup) :
    ((eraseA k l).map Prod.fst).Nodup :=
  ((eraseA_sublist k l).map Prod.fst).nodup h

theorem lookupA_eraseA_self {κ β : Type} [DecidableEq κ] (k : κ)
    {l : List (κ × β)} (hnd : (l.map Prod.fst).Nodup) :
    lookupA k (eraseA k l) = none := by
  induction l with
  | nil => simp [eraseA, lookupA]
  | cons kv rest ih =>
    obtain ⟨k1, v1⟩ := kv
    simp only [List.map_cons, List.nodup_cons] at hnd
    by_cases h1 : k1 = k
    · subst h1
      simp only [eraseA, if_pos rfl]
      rw [lookupA_eq_none_iff]
      exact hnd.1
    · simp only [eraseA, if_neg h1, lookupA, if_neg h1]
      exact ih hnd.2

theorem lookupA_eraseA_ne {κ β : Type} [DecidableEq κ] (k k1 : κ)
    (l : List (κ × β)) (h : k1 ≠ k) :
    lookupA k1 (eraseA k l) = lookupA k1 l := by
  induction l with
  | nil => simp [eraseA]
  | cons kv rest ih =>
    obtain ⟨k2, v2⟩ := kv
    by_cases h2 : k2 = k
    · subst h2
      rw [show eraseA k2 ((k2, v2) :: rest) = rest from by simp [eraseA]]
      simp only [lookupA]
      simp only [if_neg (Ne.symm h)]
    · simp only [eraseA, if_neg h2, lookupA]
      by_cases h3 : k2 = k1
      · rw [if_pos h3, if_pos h3]
      · rw [if_neg h3, if_neg h3, ih]

theorem keys_filter_subset {κ β : Type} (p : κ × β → Bool) (l : List (κ × β)) :
    (l.filter p).map Prod.fst ⊆ l.map Prod.fst := by
  intro k hmem
  obtain ⟨kv, hkvmem, hfst⟩ := List.mem_map.mp hmem
  exact List.mem_map.mpr ⟨kv, List.mem_of_mem_filter hkvmem, hfst⟩

theorem lookupA_filter_of_nodup {κ β : Type} [DecidableEq κ] {k : κ} {v : β}
    {l : List (κ × β)} (p : κ × β → Bool) (hnd : (l.map Prod.fst).Nodup)
    (h : lookupA k l = some v) :
    lookupA k (l.filter p) = if p (k, v) then some v else none := by
  induction l with
  | nil => simp [lookupA] at h
  | cons kv rest ih =>
    obtain ⟨k1, v1⟩ := kv
    simp only [List.map_cons, List.nodup_cons] at hnd
    by_cases h1 : k1 = k
    · subst h1
      have hv : v1 = v := by
        simpa [lookupA] using h
      subst hv
      rw [List.filter_cons]
      by_cases hp : p (k1, v1)
      · rw [if_pos (by exact hp)]
        simp [lookupA, hp]
      · rw [if_neg (by simpa using hp), if_neg hp]
        rw [lookupA_eq_none_iff]
        intro hmem
        exact hnd.1 (keys_filter_subset p rest hmem)
    · simp only [lookupA, if_neg h1] at h
      rw [List.filter_cons]
      by_cases hp : p (k1, v1)
      · rw [if_pos (by exact hp)]
        simp only [lookupA, if_neg h1]
        exact ih hnd.2 h
      · rw [if_neg (by simpa using hp)]
        exact ih hnd.2 h

theorem lookupA_filter_none {κ β : Type} [DecidableEq κ] {k : κ}
    {l : List (κ × β)} (p : κ × β → Bool) (h : lookupA k l = none) :
    lookupA k (l.filter p) = none := by
  rw [lookupA_eq_none_iff] at h ⊢
  intro hmem
  exact h (keys_filter_subset p l hmem)

/-! ### C2: fingerprint determinism -/

/-- C2: for all requests whose normalized forms are identical (URL equal
after lower-casing and trimming, same full-page flag, same normalized
format and delay, and width/height ignored whenever the full-page flag
is set), the computed cache key is equal; the computation is a total
function of the request. -/
theorem C2_fingerprint_deterministic (url1 url2 : String) (p1 p2 : CacheParams)
    (hurl : jsTrim (jsToLower url1) = jsTrim (jsToLower url2))
    (hfp : p1.fullPage = p2.fullPage)
    (hfmt : jsFormatString p1.format = jsFormatString p2.format)
    (hdelay : jsNumQ p1.delay 0 = jsNumQ p2.delay 0)
    (hwh : p1.fullPage = true
      ∨ (jsNumQ p1.width 1280 = jsNumQ p2.width 1280
         ∧ jsNumQ p1.height 800 = jsNumQ p2.height 800)) :
    generateCacheKey url1 p1 = generateCacheKey url2 p2 := by
  by_cases hfull : p1.fullPage
  · simp [generateCacheKey, hurl, hfmt, hdelay, hfull, ← hfp]
  · rcases hwh with hfull1 | ⟨hw, hh⟩
    · exact absurd hfull1 hfull
    · simp [generateCacheKey, hurl, hfmt, hdelay, hfull, ← hfp, hw, hh]

/-- Witness for C2 at a concrete pair of requests differing in URL case,
trailing whitespace, and (irrelevant, since full-page) width/height. -/
theorem C2_fingerprint_deterministic_witness :
    (jsTrim (jsToLower "HTTPS://Example.com ") = jsTrim (jsToLower "https://example.com"))
    ∧ generateCacheKey "HTTPS://Example.com "
        ⟨true, some 999, some 500, some "PNG", some 2⟩
      = generateCacheKey "https://example.com"
        ⟨true, some 111, some 222, some "png", some 2⟩ :=
  ⟨by decide,
   C2_fingerprint_deterministic _ _ _ _ (by decide) (by decide) (by decide)
     (by decide) (Or.inl (by decide))⟩

/-! ### C10: a denied rate-limit check mutates nothing -/

/-- C10: when a client's window has not expired and its count has
reached the maximum, `checkLimit` returns a denial carrying the
existing reset time and leaves the limiter's state (for every client)
unchanged. -/
theorem C10_denied_check_no_mutation (maxRequests : Nat) (windowMs : Int)
    (st : RLState) (client : String) (now : Int) (entry : RateLimitEntry)
    (hlook : lookupA client st = some entry)
    (hwin : ¬ now > entry.resetTime)
    (hcount : entry.count ≥ maxRequests) :
    checkLimit maxRequests windowMs st client now
      = (⟨false, 0, entry.resetTime⟩, st) := by
  simp [checkLimit, hlook, hwin, hcount]

/-- Witness for C10 at a concrete saturated window. -/
theorem C10_denied_check_no_mutation_witness :
    lookupA "c" [("c", RateLimitEntry.mk 10 100)] = some ⟨10, 100⟩
    ∧ ¬ (50 : Int) > (100 : Int)
    ∧ (10 : Nat) ≥ 10
    ∧ checkLimit 10 60000 [("c", ⟨10, 100⟩)] "c" 50
        = (⟨false, 0, 100⟩, [("c", ⟨10, 100⟩)]) :=
  ⟨by decide, by decide, by decide,
   C10_denied_check_no_mutation 10 60000 _ "c" 50 ⟨10, 100⟩ (by decide)
     (by decide) (by decide)⟩

/-! ### C1: put followed by get returns the stored bytes -/

theorem totalSize_insertA_le (k : NormalizedParams) (e : CacheEntry)
    (l : List (NormalizedParams × CacheEntry)) :
    totalSize (insertA k e l) ≤ totalSize l + e.metadata.size := by
  induction l with
  | nil => simp [insertA, totalSize]
  | cons kv rest ih =>
    obtain ⟨k1, v1⟩ := kv
    by_cases h : k1 = k
    · simp only [insertA, if_pos h, totalSize, List.map_cons, List.sum_cons]
      simp only [totalSize] at *
      omega
    · simp only [insertA, if_neg h, totalSize, List.map_cons, List.sum_cons]
      simp only [totalSize] at ih
      omega

theorem enforceSize_of_le {st : CacheState}
    (h : totalSize st.cache ≤ st.maxCacheSize) : enforceSize st = st := by
  simp [enforceSize, h]

/-- C1: storing bytes for a request and then, before any expiry or
eviction and with no interleaving writes, reading with a request whose
normalized form (cache key) is identical, returns exactly the stored
bytes. "Before any eviction" is the hypothesis that the insertion does
not push the aggregate size over the configured maximum, and "before
expiry" bounds the elapsed time by the maximum age; the model's disk
write and read succeed. -/
theorem C1_put_then_get (st : CacheState) (now now2 : Int) (url url2 : String)
    (p p2 : CacheParams) (buffer : Bytes)
    (hkey : generateCacheKey url2 p2 = generateCacheKey url p)
    (hage : now2 - now ≤ st.maxCacheAge)
    (hsize : totalSize st.cache + buffer.length ≤ st.maxCacheSize) :
    (CacheManager.get (CacheManager.set st now url p buffer) now2 url2 p2).1
      = some buffer := by
  have hmax : totalSize (setRaw st now url p buffer).cache
      ≤ (setRaw st now url p buffer).maxCacheSize := by
    have h1 := totalSize_insertA_le (generateCacheKey url p)
      { key := generateCacheKey url p
        filePath := getFilePath (generateCacheKey url p) (jsFormatString p.format)
        metadata :=
          { url := url, params := p, format := jsFormatString p.format
            createdAt := now, lastAccessed := now, size := buffer.length } }
      st.cache
    simp only [setRaw]
    exact le_trans h1 hsize
  rw [CacheManager.set, enforceSize_of_le hmax]
  simp only [CacheManager.get, hkey, setRaw, lookupA_insertA_self]
  rw [if_neg (by simpa using not_lt.mpr hage)]
  simp [touchState, lookupA_insertA_self]

/-- Witness for C1 at a concrete empty cache and request. -/
theorem C1_put_then_get_witness :
    generateCacheKey "https://a.com" ⟨false, none, none, some "png", none⟩
        = generateCacheKey "https://a.com" ⟨false, none, none, some "png", none⟩
    ∧ ((10 : Int) - 0 ≤ (86400000 : Int))
    ∧ totalSize (CacheState.mk [] [] 1000 86400000).cache + [1, 2, 3].length ≤ 1000
    ∧ (CacheManager.get
        (CacheManager.set ⟨[], [], 1000, 86400000⟩ 0 "https://a.com"
          ⟨false, none, none, some "png", none⟩ [1, 2, 3])
        10 "https://a.com" ⟨false, none, none, some "png", none⟩).1
      = some [1, 2, 3] :=
  ⟨rfl, by decide, by decide,
   C1_put_then_get ⟨[], [], 1000, 86400000⟩ 0 10 "https://a.com" "https://a.com"
     ⟨false, none, none, some "png", none⟩ ⟨false, none, none, some "png", none⟩
     [1, 2, 3] rfl (by decide) (by decide)⟩



/-! ### C6: the three miss cases of get, with eviction side effects -/

theorem get_eq_of_absent {st : CacheState} {now : Int} {url : String}
    {p : CacheParams} (h : lookupA (generateCacheKey url p) st.cache = none) :
    CacheManager.get st now url p = (none, st) := by
  simp [CacheManager.get, h]

theorem get_eq_of_expired {st : CacheState} {now : Int} {url : String}
    {p : CacheParams} {e : CacheEntry}
    (h : lookupA (generateCacheKey url p) st.cache = some e)
    (hexp : now - e.metadata.createdAt > st.maxCacheAge) :
    CacheManager.get st now url p
      = (none, deleteKey st (generateCacheKey url p)) := by
  simp [CacheManager.get, h, hexp]

theorem get_eq_of_read_fail {st : CacheState} {now : Int} {url : String}
    {p : CacheParams} {e : CacheEntry}
    (h : lookupA (generateCacheKey url p) st.cache = some e)
    (hexp : ¬ now - e.metadata.createdAt > st.maxCacheAge)
    (hdisk : lookupA e.filePath st.disk = none) :
    CacheManager.get st now url p
      = (none, deleteKey (touchState st (generateCacheKey url p) e now)
          (generateCacheKey url p)) := by
  simp [CacheManager.get, touchState, h, hexp, hdisk]

theorem get_eq_of_hit {st : CacheState} {now : Int} {url : String}
    {p : CacheParams} {e : CacheEntry} {buffer : Bytes}
    (h : lookupA (generateCacheKey url p) st.cache = some e)
    (hexp : ¬ now - e.metadata.createdAt > st.maxCacheAge)
    (hdisk : lookupA e.filePath st.disk = some buffer) :
    CacheManager.get st now url p
      = (some buffer, touchState st (generateCacheKey url p) e now) := by
  simp [CacheManager.get, touchState, h, hexp, hdisk]

/-- C6: `get` returns absent exactly when there is no index entry, or
the entry's age exceeds the maximum age, or the backing file cannot be
read; in the latter two cases the index entry is removed as a side
effect (even though removing the backing file itself fails as a no-op
when the file is absent), and in particular an entry older than the
maximum age is never returned. -/
theorem C6_get_miss_characterization (st : CacheState) (now : Int) (url : String)
    (p : CacheParams) (hwf : (st.cache.map Prod.fst).Nodup) :
    ((CacheManager.get st now url p).1 = none ↔
      lookupA (generateCacheKey url p) st.cache = none
      ∨ (∃ e, lookupA (generateCacheKey url p) st.cache = some e
           ∧ now - e.metadata.createdAt > st.maxCacheAge)
      ∨ (∃ e, lookupA (generateCacheKey url p) st.cache = some e
           ∧ ¬ now - e.metadata.createdAt > st.maxCacheAge
           ∧ lookupA e.filePath st.disk = none))
    ∧ (∀ e, lookupA (generateCacheKey url p) st.cache = some e →
        (CacheManager.get st now url p).1 = none →
        lookupA (generateCacheKey url p) (CacheManager.get st now url p).2.cache = none)
    ∧ (∀ e, lookupA (generateCacheKey url p) st.cache = some e →
        now - e.metadata.createdAt > st.maxCacheAge →
        (CacheManager.get st now url p).1 = none) := by
  rcases Option.eq_none_or_eq_some (lookupA (generateCacheKey url p) st.cache)
    with hlook | ⟨e, hlook⟩
  · rw [get_eq_of_absent hlook]
    refine ⟨by simp [hlook], ?_, ?_⟩
    · intro e he
      rw [hlook] at he
      cases he
    · intro e he
      rw [hlook] at he
      cases he
  · by_cases hexp : now - e.metadata.createdAt > st.maxCacheAge
    · rw [get_eq_of_expired hlook hexp]
      refine ⟨?_, ?_, ?_⟩
      · simp only [true_iff]
        exact Or.inr (Or.inl ⟨e, hlook, hexp⟩)
      · intro e1 _he1 _hmiss
        simp only [deleteKey, hlook]
        exact lookupA_eraseA_self _ hwf
      · intro e1 _he1 _hexp1
        rfl
    · cases hdisk1 : lookupA e.filePath st.disk with
      | some buffer =>
        rw [get_eq_of_hit hlook hexp hdisk1]
        refine ⟨?_, ?_, ?_⟩
        · constructor
          · intro hmiss
            simp at hmiss
          · rintro (hn | ⟨e1, he1, hexpa⟩ | ⟨e1, he1, hexpa, hdiska⟩)
            · rw [hlook] at hn
              cases hn
            · rw [hlook] at he1
              injection he1 with he1
              subst he1
              exact absurd hexpa hexp
            · rw [hlook] at he1
              injection he1 with he1
              subst he1
              rw [hdisk1] at hdiska
              cases hdiska
        · intro e1 _he1 hmiss
          simp at hmiss
        · intro e1 he1 hexpa
          rw [hlook] at he1
          injection he1 with he1
          subst he1
          exact absurd hexpa hexp
      | none =>
        rw [get_eq_of_read_fail hlook hexp hdisk1]
        refine ⟨?_, ?_, ?_⟩
        · simp only [true_iff]
          exact Or.inr (Or.inr ⟨e, hlook, hexp, hdisk1⟩)
        · intro e1 _he1 _hmiss
          simp only [deleteKey, touchState, lookupA_insertA_self]
          exact lookupA_eraseA_self _ (nodup_keys_insertA _ _ hwf)
        · intro e1 _he1 _hexpa
          rfl

/-- Witness for C6 at a concrete cache holding one expired entry. -/
theorem C6_get_miss_characterization_witness :
    ((sampleCacheState.cache.map Prod.fst).Nodup)
    ∧ (((CacheManager.get sampleCacheState 200 "https://a.com" pngParams).1 = none ↔
        lookupA (generateCacheKey "https://a.com" pngParams) sampleCacheState.cache = none
        ∨ (∃ e, lookupA (generateCacheKey "https://a.com" pngParams) sampleCacheState.cache = some e
             ∧ (200 : Int) - e.metadata.createdAt > sampleCacheState.maxCacheAge)
        ∨ (∃ e, lookupA (generateCacheKey "https://a.com" pngParams) sampleCacheState.cache = some e
             ∧ ¬ (200 : Int) - e.metadata.createdAt > sampleCacheState.maxCacheAge
             ∧ lookupA e.filePath sampleCacheState.disk = none))
      ∧ (∀ e, lookupA (generateCacheKey "https://a.com" pngParams) sampleCacheState.cache = some e →
          (CacheManager.get sampleCacheState 200 "https://a.com" pngParams).1 = none →
          lookupA (generateCacheKey "https://a.com" pngParams)
            (CacheManager.get sampleCacheState 200 "https://a.com" pngParams).2.cache = none)
      ∧ (∀ e, lookupA (generateCacheKey "https://a.com" pngParams) sampleCacheState.cache = some e →
          (200 : Int) - e.metadata.createdAt > sampleCacheState.maxCacheAge →
          (CacheManager.get sampleCacheState 200 "https://a.com" pngParams).1 = none)) :=
  ⟨by decide,
   C6_get_miss_characterization sampleCacheState 200 "https://a.com" pngParams (by decide)⟩

/-! ### C4: fixed-window rate limiting scenario -/

theorem insertA_of_lookup_self {κ β : Type} [DecidableEq κ] {k : κ} {v : β}
    {l : List (κ × β)} (h : lookupA k l = some v) : insertA k v l = l := by
  induction l with
  | nil => simp [lookupA] at h
  | cons kv rest ih =>
    obtain ⟨k1, v1⟩ := kv
    by_cases h1 : k1 = k
    · subst h1
      simp only [lookupA, if_pos rfl] at h
      injection h with h
      subst h
      simp [insertA]
    · simp only [lookupA, if_neg h1] at h
      simp [insertA, h1, ih h]

theorem callSeq_cons (maxR : Nat) (w : Int) (st : RLState) (client : String)
    (t : Int) (ts : List Int) :
    callSeq maxR w st client (t :: ts)
      = ((checkLimit maxR w st client t).1
           :: (callSeq maxR w (checkLimit maxR w st client t).2 client ts).1,
         (callSeq maxR w (checkLimit maxR w st client t).2 client ts).2) := by
  simp [callSeq]

theorem callSeq_append (maxR : Nat) (w : Int) (client : String) :
    ∀ (l1 l2 : List Int) (st : RLState),
    callSeq maxR w st client (l1 ++ l2)
      = ((callSeq maxR w st client l1).1
           ++ (callSeq maxR w (callSeq maxR w st client l1).2 client l2).1,
         (callSeq maxR w (callSeq maxR w st client l1).2 client l2).2) := by
  intro l1
  induction l1 with
  | nil => intro l2 st; simp [callSeq]
  | cons t rest ih =>
    intro l2 st
    rw [List.cons_append, callSeq_cons, callSeq_cons, ih]
    simp

/-- Every in-window call of an unsaturated window is allowed and
increments the count, leaving the reset time unchanged. -/
theorem callSeq_in_window (maxR : Nat) (w : Int) (client : String) (R : Int) :
    ∀ (ts : List Int) (st : RLState) (k : Nat),
    lookupA client st = some ⟨k, R⟩ →
    k + ts.length ≤ maxR →
    (∀ t ∈ ts, t ≤ R) →
    callSeq maxR w st client ts
      = ((List.range ts.length).map (fun i => ⟨true, maxR - (k + i + 1), R⟩),
         insertA client ⟨k + ts.length, R⟩ st) := by
  intro ts
  induction ts with
  | nil =>
    intro st k hlook _ _
    simp [callSeq, insertA_of_lookup_self hlook]
  | cons t rest ih =>
    intro st k hlook hcount hts
    have hnotexp : ¬ t > R := not_lt.mpr (hts t (List.mem_cons_self t rest))
    have hunder : ¬ (⟨k, R⟩ : RateLimitEntry).count ≥ maxR := by
      simp only [not_le]
      have hc : (t :: rest).length = rest.length + 1 := rfl
      rw [hc] at hcount
      omega
    have hcheck : checkLimit maxR w st client t
        = (⟨true, maxR - (k + 1), R⟩, insertA client ⟨k + 1, R⟩ st) := by
      simp [checkLimit, hlook, hnotexp, hunder]
    have hlook1 : lookupA client (insertA client ⟨k + 1, R⟩ st)
        = some ⟨k + 1, R⟩ := lookupA_insertA_self _ _ _
    have hrec := ih (insertA client ⟨k + 1, R⟩ st) (k + 1) hlook1
      (by simpa [Nat.add_assoc, Nat.add_comm 1 rest.length] using hcount)
      (fun t1 h1 => hts t1 (List.mem_cons_of_mem _ h1))
    rw [callSeq_cons, hcheck, hrec, insertA_insertA_self]
    have hmaps : (fun i => (⟨true, maxR - (k + 1 + i + 1), R⟩ : RateLimitResult))
        = fun i => (⟨true, maxR - (k + (i + 1) + 1), R⟩ : RateLimitResult) := by
      funext i
      have : k + 1 + i + 1 = k + (i + 1) + 1 := by omega
      rw [this]
    have hlen : k + 1 + rest.length = k + (rest.length + 1) := by omega
    rw [hmaps, hlen]
    simp only [List.length_cons, List.range_succ_eq_map, List.map_cons, List.map_map]
    rfl

/-- C4: with maximum 10 per 60000 ms window, for one client starting
with no window: the first call opens a window at `t0` and is allowed
with remaining 9; each of the nine further calls within the window is
allowed with remaining `10 - count`; the eleventh in-window call is
denied with remaining 0 and the unchanged reset time `t0 + 60000`; and
a call at `tf` after the stored reset time opens a fresh window
(count 1, reset `tf + 60000`) allowed with remaining 9. -/
theorem C4_rate_limit_window (st : RLState) (client : String)
    (t0 : Int) (ts : List Int) (te tf : Int)
    (hfresh : lookupA client st = none)
    (hlen : ts.length = 9)
    (hts : ∀ t ∈ ts, t ≤ t0 + 60000)
    (hte : te ≤ t0 + 60000)
    (htf : tf > t0 + 60000) :
    callSeq 10 60000 st client (t0 :: (ts ++ [te, tf]))
      = (⟨true, 9, t0 + 60000⟩
           :: (((List.range 9).map fun i => ⟨true, 8 - i, t0 + 60000⟩)
               ++ [⟨false, 0, t0 + 60000⟩, ⟨true, 9, tf + 60000⟩]),
         insertA client ⟨1, tf + 60000⟩ st) := by
  have hcheck0 : checkLimit 10 60000 st client t0
      = (⟨true, 9, t0 + 60000⟩, insertA client ⟨1, t0 + 60000⟩ st) := by
    simp [checkLimit, hfresh]
  have hwin := callSeq_in_window 10 60000 client (t0 + 60000) ts
    (insertA client ⟨1, t0 + 60000⟩ st) 1 (lookupA_insertA_self _ _ _)
    (by omega) hts
  have hlookfull : lookupA client
      (insertA client ⟨1 + ts.length, t0 + 60000⟩ (insertA client ⟨1, t0 + 60000⟩ st))
      = some ⟨10, t0 + 60000⟩ := by
    rw [hlen]
    exact lookupA_insertA_self _ _ _
  have hchecke : checkLimit 10 60000
      (insertA client ⟨1 + ts.length, t0 + 60000⟩ (insertA client ⟨1, t0 + 60000⟩ st))
      client te = (⟨false, 0, t0 + 60000⟩,
        insertA client ⟨1 + ts.length, t0 + 60000⟩ (insertA client ⟨1, t0 + 60000⟩ st)) := by
    simp [checkLimit, hlookfull, not_lt.mpr hte]
  have hcheckf : checkLimit 10 60000
      (insertA client ⟨1 + ts.length, t0 + 60000⟩ (insertA client ⟨1, t0 + 60000⟩ st))
      client tf = (⟨true, 9, tf + 60000⟩,
        insertA client ⟨1, tf + 60000⟩
          (insertA client ⟨1 + ts.length, t0 + 60000⟩ (insertA client ⟨1, t0 + 60000⟩ st))) := by
    simp [checkLimit, hlookfull, htf]
  rw [callSeq_cons, hcheck0, callSeq_append, hwin]
  rw [callSeq_cons, hchecke]
  rw [callSeq_cons, hcheckf]
  simp only [callSeq]
  rw [insertA_insertA_self, insertA_insertA_self, hlen]
  have hmap : (fun i => (⟨true, 10 - (1 + i + 1), t0 + 60000⟩ : RateLimitResult))
      = fun i => (⟨true, 8 - i, t0 + 60000⟩ : RateLimitResult) := by
    funext i
    congr 1
    omega
  rw [hmap]

/-- Witness for C4: eleven calls at time 0 and one at 60001 from a
fresh client. -/
theorem C4_rate_limit_window_witness :
    lookupA "c" ([] : RLState) = none
    ∧ ([0, 0, 0, 0, 0, 0, 0, 0, 0] : List Int).length = 9
    ∧ (∀ t ∈ ([0, 0, 0, 0, 0, 0, 0, 0, 0] : List Int), t ≤ (0 : Int) + 60000)
    ∧ ((0 : Int) ≤ (0 : Int) + 60000)
    ∧ ((60001 : Int) > (0 : Int) + 60000)
    ∧ callSeq 10 60000 [] "c" (0 :: ([0, 0, 0, 0, 0, 0, 0, 0, 0] ++ [0, 60001]))
      = (⟨true, 9, 0 + 60000⟩
           :: (((List.range 9).map fun i => ⟨true, 8 - i, 0 + 60000⟩)
               ++ [⟨false, 0, 0 + 60000⟩, ⟨true, 9, 60001 + 60000⟩]),
         insertA "c" ⟨1, 60001 + 60000⟩ []) :=
  ⟨rfl, rfl, by decide, by decide, by decide,
   C4_rate_limit_window [] "c" 0 [0, 0, 0, 0, 0, 0, 0, 0, 0] 0 60001 rfl rfl
     (by decide) (by decide) (by decide)⟩

/-! ### C8: bounded retries with fixed backoff, final error propagated -/

theorem attemptCapture_spec (capture : Nat → CaptureResult) :
    ∀ (remaining attempt : Nat), 1 ≤ remaining →
    1 ≤ (attemptCapture capture attempt remaining).2.1
    ∧ (attemptCapture capture attempt remaining).2.1 ≤ remaining
    ∧ (attemptCapture capture attempt remaining).2.2
        = List.replicate ((attemptCapture capture attempt remaining).2.1 - 1) 2000 := by
  intro remaining
  induction remaining with
  | zero => intro _ h; cases h
  | succ r ih =>
    intro attempt _
    cases hc : capture attempt with
    | success b => simp [attemptCapture, hc]
    | failure msg =>
      by_cases hr : r = 0
      · subst hr
        simp [attemptCapture, hc]
      · have hrec := ih (attempt + 1) (Nat.one_le_iff_ne_zero.mpr hr)
        simp only [attemptCapture, hc, if_neg hr]
        refine ⟨by omega, by omega, ?_⟩
        have h1 : (attemptCapture capture (attempt + 1) r).2.1 + 1 - 1
            = ((attemptCapture capture (attempt + 1) r).2.1 - 1) + 1 := by omega
        rw [h1, List.replicate_succ]
        exact congrArg (fun l => 2000 :: l) hrec.2.2

theorem processJobBody_attempts (capture : Nat → CaptureResult)
    (job : ScreenshotJob) (now : Int) :
    (processJobBody none capture job now).2 = (attemptCapture capture 0 3).2 := by
  rcases h : attemptCapture capture 0 3 with ⟨r, n, ws⟩
  cases r <;> simp [processJobBody, h]

/-- C8: when the worker loop processes a job whose request misses the
cache, the capture is attempted at most 3 times in total, with a fixed
2000 ms wait between consecutive attempts; and when every attempt
fails, exactly 3 attempts and 2 waits happen, the final attempt's error
propagates, and the job transitions to failed with that message stored
verbatim and `completedAt` stamped. -/
theorem C8_retry_bound (job : ScreenshotJob) (now : Int)
    (capture : Nat → CaptureResult) (m : Nat → String) :
    ((processJobBody none capture job now).2.1 ≤ 3
     ∧ (processJobBody none capture job now).2.2
         = List.replicate ((processJobBody none capture job now).2.1 - 1) 2000)
    ∧ ((∀ i, i < 3 → capture i = CaptureResult.failure (m i)) →
        processJobBody none capture job now
          = ({ job with
                status := JobStatus.failed, error := some (m 2),
                completedAt := some now }, 3, [2000, 2000])) := by
  constructor
  · have hspec := attemptCapture_spec capture 3 0 (by omega)
    rw [processJobBody_attempts capture job now]
    exact ⟨hspec.2.1, hspec.2.2⟩
  · intro hfail
    have h0 := hfail 0 (by omega)
    have h1 := hfail 1 (by omega)
    have h2 := hfail 2 (by omega)
    have hstep : attemptCapture capture 0 3 = (Except.error (m 2), 3, [2000, 2000]) := by
      show attemptCapture capture 0 (2 + 1) = _
      rw [attemptCapture, h0]
      simp only [if_neg (by omega : ¬ (2 : Nat) = 0)]
      show (_, (attemptCapture capture 1 (1 + 1)).2.1 + 1,
        2000 :: (attemptCapture capture 1 (1 + 1)).2.2) = _
      rw [attemptCapture, h1]
      simp only [if_neg (by omega : ¬ (1 : Nat) = 0)]
      show (_, (attemptCapture capture 2 (0 + 1)).2.1 + 1 + 1,
        2000 :: 2000 :: (attemptCapture capture 2 (0 + 1)).2.2) = _
      rw [attemptCapture, h2]
      simp
    simp [processJobBody, hstep, failJob]

/-- Witness for C8 with an all-failing capture oracle. -/
theorem C8_retry_bound_witness :
    (((processJobBody none failingCapture sampleJob 7).2.1 ≤ 3
      ∧ (processJobBody none failingCapture sampleJob 7).2.2
          = List.replicate ((processJobBody none failingCapture sampleJob 7).2.1 - 1) 2000)
     ∧ ((∀ i, i < 3 → failingCapture i = CaptureResult.failure (failingMsg i)) →
         processJobBody none failingCapture sampleJob 7
           = ({ sampleJob with
                 status := JobStatus.failed, error := some (failingMsg 2),
                 completedAt := some 7 }, 3, [2000, 2000])))
    ∧ (∀ i, i < 3 → failingCapture i = CaptureResult.failure (failingMsg i)) :=
  ⟨C8_retry_bound sampleJob 7 failingCapture failingMsg, by decide⟩

/-! ### C7: invalid URLs are rejected before any state is created -/

/-- C7: for every request body whose URL fails validation (disallowed
protocol, private or loopback address, URL-shortener domain, embedded
pseudo-protocol, or malformed URL), `createJob` returns the validation
error with an empty job identifier and the scheduler state is returned
unchanged: no job record, no queue entry, no worker-loop start. -/
theorem C7_invalid_url_rejected (st : JobQueueState) (now : Int) (newId : String)
    (params : RawJobParams) (e : String)
    (hval : validateUrl params.url = ⟨false, some e⟩) :
    createJob st now newId params = (⟨"", some e⟩, st) := by
  simp [createJob, hval]

/-- Witness for C7 at the concrete body `"ftp://internal"` against a
nonempty scheduler state. -/
theorem C7_invalid_url_rejected_witness :
    validateUrl ftpParams.url
      = ⟨false, some "Only HTTP and HTTPS protocols are allowed"⟩
    ∧ createJob queueA 5 "job2" ftpParams
      = (⟨"", some "Only HTTP and HTTPS protocols are allowed"⟩, queueA) :=
  ⟨by decide,
   C7_invalid_url_rejected queueA 5 "job2" ftpParams
     "Only HTTP and HTTPS protocols are allowed" (by decide)⟩

/-! ### C9: getJob does not redact the capture parameters -/

/-- C9 as stated is false on the code: `getJob` performs no redaction.
Two scheduler states whose stored jobs agree on status, result, error,
and both timestamps, and differ only in the capture parameters, yield
different `getJob` views — so the returned view depends on (exposes)
the capture parameters instead of omitting them. -/
theorem C9_getJob_redaction_counterexample :
    jobA.status = jobB.status
    ∧ jobA.result = jobB.result
    ∧ jobA.error = jobB.error
    ∧ jobA.createdAt = jobB.createdAt
    ∧ jobA.completedAt = jobB.completedAt
    ∧ jobA.params ≠ jobB.params
    ∧ JobQueue.getJob queueA "job1" ≠ JobQueue.getJob queueB "job1" := by
  decide

/-- C9 amended: for every identifier present in the scheduler, `getJob`
returns the complete stored job record — the capture parameters
included, alongside status, result, error and the creation/completion
timestamps — and for an absent identifier it returns absent; the state
is not consulted beyond the O(1) map lookup and is not mutated. -/
theorem C9_getJob_returns_full_record (st : JobQueueState) (jobId : String) :
    (∀ j, lookupA jobId st.jobs = some j →
      JobQueue.getJob st jobId = some j
      ∧ (JobQueue.getJob st jobId).map ScreenshotJob.params = some j.params
      ∧ (JobQueue.getJob st jobId).map ScreenshotJob.status = some j.status
      ∧ (JobQueue.getJob st jobId).map ScreenshotJob.result = some j.result
      ∧ (JobQueue.getJob st jobId).map ScreenshotJob.error = some j.error
      ∧ (JobQueue.getJob st jobId).map ScreenshotJob.createdAt = some j.createdAt
      ∧ (JobQueue.getJob st jobId).map ScreenshotJob.completedAt = some j.completedAt)
    ∧ (lookupA jobId st.jobs = none → JobQueue.getJob st jobId = none) := by
  constructor
  · intro j hj
    simp [JobQueue.getJob, hj]
  · intro hj
    simp [JobQueue.getJob, hj]

/-- Witness for the amended C9 at a concrete one-job scheduler. -/
theorem C9_getJob_returns_full_record_witness :
    lookupA "job1" queueA.jobs = some jobA
    ∧ JobQueue.getJob queueA "job1" = some jobA
    ∧ (JobQueue.getJob queueA "job1").map ScreenshotJob.params = some jobA.params :=
  ⟨by decide,
   ((C9_getJob_returns_full_record queueA "job1").1 jobA (by decide)).1,
   ((C9_getJob_returns_full_record queueA "job1").1 jobA (by decide)).2.1⟩

/-! ### C5: size enforcement evicts oldest-accessed entries first -/

theorem insertSorted_perm (e : CacheEntry) (l : List CacheEntry) :
    (insertSorted e l).Perm (e :: l) := by
  induction l with
  | nil => simp [insertSorted]
  | cons a as ih =>
    by_cases h : e.metadata.lastAccessed ≤ a.metadata.lastAccessed
    · simp [insertSorted, h]
    · simp only [insertSorted, if_neg h]
      exact (ih.cons a).trans (List.Perm.swap e a as)

theorem sortByLastAccessed_perm (l : List CacheEntry) :
    (sortByLastAccessed l).Perm l := by
  induction l with
  | nil => simp [sortByLastAccessed]
  | cons a as ih =>
    exact (insertSorted_perm a (sortByLastAccessed as)).trans (ih.cons a)

theorem insertSorted_pairwise (e : CacheEntry) (l : List CacheEntry)
    (h : l.Pairwise (fun a b => a.metadata.lastAccessed ≤ b.metadata.lastAccessed)) :
    (insertSorted e l).Pairwise
      (fun a b => a.metadata.lastAccessed ≤ b.metadata.lastAccessed) := by
  induction l with
  | nil => simp [insertSorted]
  | cons a as ih =>
    rcases List.pairwise_cons.mp h with ⟨ha, has⟩
    by_cases hle : e.metadata.lastAccessed ≤ a.metadata.lastAccessed
    · simp only [insertSorted, if_pos hle]
      refine List.pairwise_cons.mpr ⟨?_, h⟩
      intro b hb
      rcases List.mem_cons.mp hb with rfl | hb2
      · exact hle
      · exact le_trans hle (ha b hb2)
    · simp only [insertSorted, if_neg hle]
      refine List.pairwise_cons.mpr ⟨?_, ih has⟩
      intro b hb
      have hb3 := (insertSorted_perm e as).mem_iff.mp hb
      rcases List.mem_cons.mp hb3 with rfl | hb4
      · exact le_of_not_le hle
      · exact ha b hb4

theorem sortByLastAccessed_pairwise (l : List CacheEntry) :
    (sortByLastAccessed l).Pairwise
      (fun a b => a.metadata.lastAccessed ≤ b.metadata.lastAccessed) := by
  induction l with
  | nil => simp [sortByLastAccessed]
  | cons a as ih => exact insertSorted_pairwise a _ ih

theorem perm_cons_eraseA {κ β : Type} [DecidableEq κ] {k : κ} {v : β}
    {l : List (κ × β)} (h : lookupA k l = some v) :
    l.Perm ((k, v) :: eraseA k l) := by
  induction l with
  | nil => simp [lookupA] at h
  | cons kv rest ih =>
    obtain ⟨k1, v1⟩ := kv
    by_cases h1 : k1 = k
    · subst h1
      simp only [lookupA, if_pos rfl] at h
      injection h with h
      subst h
      simp [eraseA]
    · simp only [lookupA, if_neg h1] at h
      simp only [eraseA, if_neg h1]
      exact ((ih h).cons (k1, v1)).trans (List.Perm.swap (k, v) (k1, v1) (eraseA k rest))

theorem totalSize_perm {l1 l2 : List (NormalizedParams × CacheEntry)}
    (h : l1.Perm l2) : totalSize l1 = totalSize l2 :=
  List.Perm.sum_eq (h.map _)

theorem mem_insertA {κ β : Type} [DecidableEq κ] {kv : κ × β} {k : κ} {v : β}
    {l : List (κ × β)} (h : kv ∈ insertA k v l) : kv = (k, v) ∨ kv ∈ l := by
  induction l with
  | nil =>
    simp only [insertA, List.mem_singleton] at h
    exact Or.inl h
  | cons kv1 rest ih =>
    obtain ⟨k1, v1⟩ := kv1
    by_cases h1 : k1 = k
    · subst h1
      simp only [insertA, eq_self_iff_true, if_true, List.mem_cons] at h
      rcases h with h2 | h2
      · exact Or.inl h2
      · exact Or.inr (List.mem_cons_of_mem _ h2)
    · simp only [insertA, if_neg h1, List.mem_cons] at h
      rcases h with h2 | h2
      · refine Or.inr ?_
        rw [h2]
        exact List.mem_cons_self _ _
      · rcases ih h2 with h3 | h3
        · exact Or.inl h3
        · exact Or.inr (List.mem_cons_of_mem _ h3)

theorem cacheWF_setRaw (st : CacheState) (now : Int) (url : String)
    (p : CacheParams) (buffer : Bytes) (hwf : CacheWF st) :
    CacheWF (setRaw st now url p buffer) := by
  constructor
  · exact nodup_keys_insertA _ _ hwf.1
  · intro kv hkv
    rcases mem_insertA hkv with rfl | h2
    · rfl
    · exact hwf.2 kv h2

theorem cacheWF_deleteKey (st : CacheState) (key : NormalizedParams)
    (hwf : CacheWF st) : CacheWF (deleteKey st key) := by
  unfold deleteKey
  cases h : lookupA key st.cache with
  | none => exact hwf
  | some e =>
    constructor
    · exact nodup_keys_eraseA _ hwf.1
    · intro kv hkv
      exact hwf.2 kv ((eraseA_sublist key st.cache).subset hkv)

theorem deleteKey_max (st : CacheState) (key : NormalizedParams) :
    (deleteKey st key).maxCacheSize = st.maxCacheSize := by
  unfold deleteKey
  cases lookupA key st.cache <;> rfl

theorem lookupA_head_of_perm_values (st : CacheState) (e : CacheEntry)
    (hwf : CacheWF st) (hmem : e ∈ st.cache.map Prod.snd) :
    lookupA e.key st.cache = some e := by
  obtain ⟨kv, hkv, hsnd⟩ := List.mem_map.mp hmem
  obtain ⟨k1, v1⟩ := kv
  subst hsnd
  have hk := hwf.2 (k1, v1) hkv
  simp only at hk
  show lookupA v1.key st.cache = some v1
  rw [hk]
  exact lookupA_of_mem_of_nodup hwf.1 hkv

theorem deleteKey_values_perm (st : CacheState) (e : CacheEntry)
    (hwf : CacheWF st) (hmem : e ∈ st.cache.map Prod.snd) :
    (st.cache.map Prod.snd).Perm (e :: (deleteKey st e.key).cache.map Prod.snd) := by
  have hlook := lookupA_head_of_perm_values st e hwf hmem
  have hperm := perm_cons_eraseA hlook
  have := hperm.map Prod.snd
  simpa [deleteKey, hlook] using this

theorem deleteKey_totalSize (st : CacheState) (e : CacheEntry)
    (hwf : CacheWF st) (hmem : e ∈ st.cache.map Prod.snd) :
    totalSize st.cache = e.metadata.size + totalSize (deleteKey st e.key).cache := by
  have hlook := lookupA_head_of_perm_values st e hwf hmem
  have hperm := perm_cons_eraseA hlook
  have h1 := totalSize_perm hperm
  simpa [deleteKey, hlook, totalSize] using h1

theorem evictLoop_max :
    ∀ (entries : List CacheEntry) (st : CacheState) (c : Int),
    (evictLoop st entries c).maxCacheSize = st.maxCacheSize := by
  intro entries
  induction entries with
  | nil => intro st c; rfl
  | cons e rest ih =>
    intro st c
    by_cases h : c * 5 ≤ (st.maxCacheSize : Int) * 4
    · simp [evictLoop, h]
    · simp only [evictLoop, if_neg h]
      rw [ih, deleteKey_max]

theorem evictLoop_cache_sublist :
    ∀ (entries : List CacheEntry) (st : CacheState) (c : Int),
    (evictLoop st entries c).cache.Sublist st.cache := by
  intro entries
  induction entries with
  | nil => intro st c; exact List.Sublist.refl _
  | cons e rest ih =>
    intro st c
    by_cases h : c * 5 ≤ (st.maxCacheSize : Int) * 4
    · simp [evictLoop, h]
    · simp only [evictLoop, if_neg h]
      refine (ih _ _).trans ?_
      unfold deleteKey
      cases lookupA e.key st.cache with
      | none => exact List.Sublist.refl _
      | some e1 => exact eraseA_sublist _ _

theorem evictLoop_le :
    ∀ (entries : List CacheEntry) (st : CacheState) (c : Int),
    CacheWF st →
    (st.cache.map Prod.snd).Perm entries →
    c = (totalSize st.cache : Int) →
    5 * totalSize (evictLoop st entries c).cache ≤ 4 * st.maxCacheSize := by
  intro entries
  induction entries with
  | nil =>
    intro st c _ hperm _
    have h1 : st.cache.map Prod.snd = [] := hperm.eq_nil
    have h2 : st.cache = [] := List.map_eq_nil_iff.mp h1
    simp [evictLoop, totalSize, h2]
  | cons e rest ih =>
    intro st c hwf hperm hc
    by_cases hcond : c * 5 ≤ (st.maxCacheSize : Int) * 4
    · simp only [evictLoop, if_pos hcond]
      subst hc
      omega
    · simp only [evictLoop, if_neg hcond]
      have hmem : e ∈ st.cache.map Prod.snd :=
        hperm.mem_iff.mpr (List.mem_cons_self e rest)
      have hwf1 := cacheWF_deleteKey st e.key hwf
      have hvals := deleteKey_values_perm st e hwf hmem
      have hperm1 : ((deleteKey st e.key).cache.map Prod.snd).Perm rest :=
        (hvals.symm.trans hperm).cons_inv
      have hsize := deleteKey_totalSize st e hwf hmem
      have hc1 : c - (e.metadata.size : Int)
          = (totalSize (deleteKey st e.key).cache : Int) := by
        subst hc
        omega
      have hrec := ih (deleteKey st e.key) (c - (e.metadata.size : Int)) hwf1 hperm1 hc1
      rw [deleteKey_max] at hrec
      exact hrec

theorem evictLoop_order :
    ∀ (entries : List CacheEntry) (st : CacheState) (c : Int),
    CacheWF st →
    (st.cache.map Prod.snd).Perm entries →
    entries.Pairwise (fun a b => a.metadata.lastAccessed ≤ b.metadata.lastAccessed) →
    ∀ d ∈ st.cache.map Prod.snd,
      d ∉ (evictLoop st entries c).cache.map Prod.snd →
      ∀ r ∈ (evictLoop st entries c).cache.map Prod.snd,
        d.metadata.lastAccessed ≤ r.metadata.lastAccessed := by
  intro entries
  induction entries with
  | nil =>
    intro st c _ _ _ d hd hnd r _hr
    exact absurd hd hnd
  | cons e rest ih =>
    intro st c hwf hperm hpair d hd hnd r hr
    by_cases hcond : c * 5 ≤ (st.maxCacheSize : Int) * 4
    · simp only [evictLoop, if_pos hcond] at hnd
      exact absurd hd hnd
    · simp only [evictLoop, if_neg hcond] at hnd hr
      have hmem : e ∈ st.cache.map Prod.snd :=
        hperm.mem_iff.mpr (List.mem_cons_self e rest)
      have hwf1 := cacheWF_deleteKey st e.key hwf
      have hvals := deleteKey_values_perm st e hwf hmem
      have hperm1 : ((deleteKey st e.key).cache.map Prod.snd).Perm rest :=
        (hvals.symm.trans hperm).cons_inv
      by_cases hde : d = e
      · subst hde
        have hsub : r ∈ (deleteKey st d.key).cache.map Prod.snd := by
          have hsubl := (evictLoop_cache_sublist rest (deleteKey st d.key)
            (c - (d.metadata.size : Int))).map Prod.snd
          exact hsubl.subset hr
        have hrrest : r ∈ rest := hperm1.mem_iff.mp hsub
        exact (List.pairwise_cons.mp hpair).1 r hrrest
      · have hd1 : d ∈ (deleteKey st e.key).cache.map Prod.snd := by
          have h3 : d ∈ e :: (deleteKey st e.key).cache.map Prod.snd :=
            hvals.mem_iff.mp hd
          rcases List.mem_cons.mp h3 with h4 | h4
          · exact absurd h4 hde
          · exact h4
        exact ih (deleteKey st e.key) (c - (e.metadata.size : Int)) hwf1 hperm1
          (List.pairwise_cons.mp hpair).2 d hd1 hnd r hr

theorem enforceSize_total_le (st : CacheState) (hwf : CacheWF st) :
    totalSize (enforceSize st).cache ≤ st.maxCacheSize := by
  by_cases h : totalSize st.cache ≤ st.maxCacheSize
  · simp only [enforceSize, if_pos h]
    exact h
  · simp only [enforceSize, if_neg h]
    have h5 := evictLoop_le (sortByLastAccessed (st.cache.map Prod.snd)) st
      (totalSize st.cache : Int) hwf (sortByLastAccessed_perm _).symm rfl
    omega

theorem enforceSize_hysteresis (st : CacheState) (hwf : CacheWF st)
    (h : totalSize st.cache > st.maxCacheSize) :
    5 * totalSize (enforceSize st).cache ≤ 4 * st.maxCacheSize := by
  simp only [enforceSize, if_neg (not_le.mpr h)]
  exact evictLoop_le _ st _ hwf (sortByLastAccessed_perm _).symm rfl

theorem enforceSize_order (st : CacheState) (hwf : CacheWF st) :
    ∀ d ∈ st.cache.map Prod.snd,
      d ∉ (enforceSize st).cache.map Prod.snd →
      ∀ r ∈ (enforceSize st).cache.map Prod.snd,
        d.metadata.lastAccessed ≤ r.metadata.lastAccessed := by
  intro d hd hnd r hr
  by_cases h : totalSize st.cache ≤ st.maxCacheSize
  · simp only [enforceSize, if_pos h] at hnd
    exact absurd hd hnd
  · simp only [enforceSize, if_neg h] at hnd hr
    exact evictLoop_order _ st _ hwf (sortByLastAccessed_perm _).symm
      (sortByLastAccessed_pairwise _) d hd hnd r hr

/-- C5: after every `set` the aggregate tracked size is at most the
configured maximum; when the insertion pushed the aggregate above the
maximum, eviction brings it down to at most 80% of the maximum
(hysteresis); and every entry evicted by the enforcement was last
accessed no later than every retained entry — the retained entries are
the most recently accessed ones. -/
theorem C5_size_enforcement (st : CacheState) (now : Int) (url : String)
    (p : CacheParams) (buffer : Bytes) (hwf : CacheWF st) :
    totalSize (CacheManager.set st now url p buffer).cache ≤ st.maxCacheSize
    ∧ (totalSize (setRaw st now url p buffer).cache > st.maxCacheSize →
        5 * totalSize (CacheManager.set st now url p buffer).cache
          ≤ 4 * st.maxCacheSize)
    ∧ (∀ d ∈ (setRaw st now url p buffer).cache.map Prod.snd,
        d ∉ (CacheManager.set st now url p buffer).cache.map Prod.snd →
        ∀ r ∈ (CacheManager.set st now url p buffer).cache.map Prod.snd,
          d.metadata.lastAccessed ≤ r.metadata.lastAccessed) := by
  have hwf1 := cacheWF_setRaw st now url p buffer hwf
  refine ⟨?_, ?_, ?_⟩
  · exact enforceSize_total_le (setRaw st now url p buffer) hwf1
  · intro hover
    exact enforceSize_hysteresis _ hwf1 hover
  · exact enforceSize_order _ hwf1

/-- Witness for C5 at a concrete one-entry cache. -/
theorem C5_size_enforcement_witness :
    CacheWF sampleCacheState
    ∧ totalSize (CacheManager.set sampleCacheState 7 "https://b.com" pngParams [9, 9]).cache
        ≤ sampleCacheState.maxCacheSize :=
  ⟨⟨by decide, by decide⟩,
   (C5_size_enforcement sampleCacheState 7 "https://b.com" pngParams [9, 9]
     ⟨by decide, by decide⟩).1⟩

/-! ### C3: forward-only job lifecycle -/

theorem lookupA_insertA_cases {κ β : Type} [DecidableEq κ] {k k0 : κ} {v0 : β}
    {l : List (κ × β)} {j : β} (h : lookupA k (insertA k0 v0 l) = some j) :
    (k = k0 ∧ j = v0) ∨ (k ≠ k0 ∧ lookupA k l = some j) := by
  by_cases hk : k = k0
  · subst hk
    rw [lookupA_insertA_self] at h
    injection h with h
    exact Or.inl ⟨rfl, h.symm⟩
  · rw [lookupA_insertA_ne _ _ _ _ hk] at h
    exact Or.inr ⟨hk, h⟩

theorem lookupA_filter_some_of_nodup {κ β : Type} [DecidableEq κ] {k : κ} {j : β}
    {l : List (κ × β)} (p : κ × β → Bool) (hnd : (l.map Prod.fst).Nodup)
    (h : lookupA k (l.filter p) = some j) : lookupA k l = some j :=
  lookupA_of_mem_of_nodup hnd (List.mem_of_mem_filter (mem_of_lookupA_some h))

theorem createJob_state (st : JobQueueState) (now : Int) (newId : String)
    (params : RawJobParams) :
    (createJob st now newId params).2 = st
    ∨ (createJob st now newId params).2
        = { st with
            jobs := insertA newId
              ⟨newId, JobStatus.pending, sanitizeScreenshotParams params,
               none, none, now, none⟩
              st.jobs
            processingQueue := st.processingQueue ++ [newId] } := by
  unfold createJob
  by_cases h1 : (validateUrl params.url).valid = false
  · simp [h1]
  · simp only [if_neg h1]
    by_cases h2 : (sanitizeScreenshotParams params).url = ""
    · simp [h2]
    · simp [h2]

theorem processJobBody_terminal (cacheBytes : Option Bytes)
    (capture : Nat → CaptureResult) (job : ScreenshotJob) (now : Int) :
    isTerminal (processJobBody cacheBytes capture job now).1.status = true
    ∧ (processJobBody cacheBytes capture job now).1.completedAt = some now
    ∧ ((processJobBody cacheBytes capture job now).1.status = JobStatus.completed
       ∨ (processJobBody cacheBytes capture job now).1.status = JobStatus.failed) := by
  cases cacheBytes with
  | some b => simp [processJobBody, completeJob, isTerminal]
  | none =>
    rcases h : attemptCapture capture 0 3 with ⟨r, n, ws⟩
    cases r with
    | ok b => simp [processJobBody, h, completeJob, isTerminal]
    | error msg => simp [processJobBody, h, failJob, isTerminal]

theorem queueInv_init : QueueInv initQueueState := by
  constructor <;> simp [initQueueState, lookupA]

theorem queueInv_step (now : Int) (s s1 : JobQueueState)
    (hinv : QueueInv s) (hstep : QueueStep now s s1) : QueueInv s1 := by
  cases hstep with
  | create newId params hfresh =>
    rcases createJob_state s now newId params with heq | heq
    · rw [heq]
      exact hinv
    · rw [heq]
      have hnewkey : newId ∉ s.jobs.map Prod.fst := (lookupA_eq_none_iff _ _).mp hfresh
      have hnewq : newId ∉ s.processingQueue := by
        intro hmem
        obtain ⟨j, hj, _⟩ := hinv.queuePending newId hmem
        rw [hj] at hfresh
        cases hfresh
      constructor
      · exact nodup_keys_insertA _ _ hinv.keysNodup
      · rw [List.nodup_append]
        exact ⟨hinv.queueNodup, List.nodup_singleton _,
          fun x hx hx1 => hnewq (by rwa [List.mem_singleton.mp hx1] at hx)⟩
      · intro id hid
        rcases List.mem_append.mp hid with hid1 | hid1
        · obtain ⟨j, hj, hjp⟩ := hinv.queuePending id hid1
          have hne : id ≠ newId := by
            rintro rfl
            rw [hj] at hfresh
            cases hfresh
          refine ⟨j, ?_, hjp⟩
          rw [lookupA_insertA_ne _ _ _ _ hne]
          exact hj
        · rw [List.mem_singleton.mp hid1]
          exact ⟨_, lookupA_insertA_self _ _ _, rfl⟩
      · intro id hid
        obtain ⟨j, hj, hjp⟩ := hinv.currentProcessing id hid
        have hne : id ≠ newId := by
          rintro rfl
          rw [hj] at hfresh
          cases hfresh
        refine ⟨j, ?_, hjp⟩
        rw [lookupA_insertA_ne _ _ _ _ hne]
        exact hj
      · intro id hid hmem
        obtain ⟨j, hj, _⟩ := hinv.currentProcessing id hid
        rcases List.mem_append.mp hmem with hid1 | hid1
        · exact hinv.currentNotQueued id hid hid1
        · rw [List.mem_singleton.mp hid1] at hj
          rw [hj] at hfresh
          cases hfresh
      · intro id j hj
        rcases lookupA_insertA_cases hj with ⟨rfl, rfl⟩ | ⟨_, hj1⟩
        · simp [isTerminal]
        · exact hinv.completedAtTerminal id j hj1
  | start id rest job hq hcur hjob =>
    obtain ⟨j0, hj0, hj0p⟩ := hinv.queuePending id (by rw [hq]; exact List.mem_cons_self _ _)
    rw [hjob] at hj0
    injection hj0 with hj0
    subst hj0
    have hrestnd : rest.Nodup ∧ id ∉ rest := by
      have := hinv.queueNodup
      rw [hq] at this
      rcases List.nodup_cons.mp this with ⟨h1, h2⟩
      exact ⟨h2, h1⟩
    constructor
    · exact nodup_keys_insertA _ _ hinv.keysNodup
    · exact hrestnd.1
    · intro id1 hid1
      have hne : id1 ≠ id := by
        rintro rfl
        exact hrestnd.2 hid1
      obtain ⟨j, hj, hjp⟩ := hinv.queuePending id1 (by rw [hq]; exact List.mem_cons_of_mem _ hid1)
      refine ⟨j, ?_, hjp⟩
      rw [lookupA_insertA_ne _ _ _ _ hne]
      exact hj
    · intro id1 hid1
      injection hid1 with hid1
      subst hid1
      exact ⟨_, lookupA_insertA_self _ _ _, rfl⟩
    · intro id1 hid1
      injection hid1 with hid1
      subst hid1
      exact hrestnd.2
    · intro id1 j hj
      rcases lookupA_insertA_cases hj with ⟨rfl, rfl⟩ | ⟨_, hj1⟩
      · have hterm := hinv.completedAtTerminal id1 job hjob
        rw [hj0p] at hterm
        have hcomp : job.completedAt = none := by
          by_contra hne
          have hbad := hterm.mp hne
          simp [isTerminal] at hbad
        simp [hcomp, isTerminal]
      · exact hinv.completedAtTerminal id1 j hj1
  | skip id rest hq hcur hjob =>
    obtain ⟨j, hj, _⟩ := hinv.queuePending id (by rw [hq]; exact List.mem_cons_self _ _)
    rw [hj] at hjob
    cases hjob
  | finish id job cacheBytes capture hcur hjob =>
    obtain ⟨j0, hj0, hj0p⟩ := hinv.currentProcessing id hcur
    rw [hjob] at hj0
    injection hj0 with hj0
    subst hj0
    constructor
    · exact nodup_keys_insertA _ _ hinv.keysNodup
    · exact hinv.queueNodup
    · intro id1 hid1
      have hne : id1 ≠ id := by
        rintro rfl
        exact hinv.currentNotQueued id1 hcur hid1
      obtain ⟨j, hj, hjp⟩ := hinv.queuePending id1 hid1
      refine ⟨j, ?_, hjp⟩
      rw [lookupA_insertA_ne _ _ _ _ hne]
      exact hj
    · intro id1 hid1
      cases hid1
    · intro id1 hid1
      cases hid1
    · intro id1 j hj
      rcases lookupA_insertA_cases hj with ⟨rfl, rfl⟩ | ⟨_, hj1⟩
      · have hterm := processJobBody_terminal cacheBytes capture job now
        rw [hterm.2.1]
        simp [hterm.1]
      · exact hinv.completedAtTerminal id1 j hj1
  | idle hq hcur =>
    exact ⟨hinv.keysNodup, hinv.queueNodup, hinv.queuePending,
      hinv.currentProcessing, hinv.currentNotQueued, hinv.completedAtTerminal⟩
  | sweep =>
    constructor
    · exact ((List.filter_sublist _).map Prod.fst).nodup hinv.keysNodup
    · exact hinv.queueNodup
    · intro id hid
      obtain ⟨j, hj, hjp⟩ := hinv.queuePending id hid
      have hcnone : j.completedAt = none := by
        have := hinv.completedAtTerminal id j hj
        rw [hjp] at this
        simp only [isTerminal] at this
        by_contra hne
        exact absurd (this.mp hne) (by simp)
      refine ⟨j, ?_, hjp⟩
      rw [lookupA_filter_of_nodup _ hinv.keysNodup hj]
      simp [completedBefore, hcnone]
    · intro id hid
      obtain ⟨j, hj, hjp⟩ := hinv.currentProcessing id hid
      have hcnone : j.completedAt = none := by
        have := hinv.completedAtTerminal id j hj
        rw [hjp] at this
        simp only [isTerminal] at this
        by_contra hne
        exact absurd (this.mp hne) (by simp)
      refine ⟨j, ?_, hjp⟩
      rw [lookupA_filter_of_nodup _ hinv.keysNodup hj]
      simp [completedBefore, hcnone]
    · exact hinv.currentNotQueued
    · intro id j hj
      exact hinv.completedAtTerminal id j
        (lookupA_filter_some_of_nodup _ hinv.keysNodup hj)

theorem queueInv_reachable (s : JobQueueState) (h : QueueReachable s) : QueueInv s := by
  induction h with
  | init => exact queueInv_init
  | step now s s1 _hr hstep ih => exact queueInv_step now s s1 ih hstep

theorem job_unchanged_conclusions (now : Int) (P : Prop) (j : ScreenshotJob) :
    StatusAdvances j.status j.status
    ∧ (∀ t, j.completedAt = some t → j.completedAt = some t)
    ∧ (j.completedAt = none → j.completedAt ≠ none →
        isTerminal j.status = true ∧ j.status = JobStatus.processing
          ∧ j.completedAt = some now)
    ∧ (j.status = JobStatus.pending → j.status = JobStatus.processing → P)
    ∧ (isTerminal j.status = true → j = j) :=
  ⟨Or.inl rfl, fun _ ht => ht, fun h1 h2 => absurd h1 h2,
   fun hp hp2 => absurd (hp.symm.trans hp2) (by decide),
   fun _ => rfl⟩

/-- C3: along every transition out of a reachable scheduler state, a
job's status only moves forward through the chain
`pending → processing → {completed, failed}`: a freshly created job
record is pending with no completion timestamp; a stored completion
timestamp is never changed; `completedAt` becomes set only at the very
step whose status write is terminal (and is stamped with that step's
time); a job leaves pending for processing only when it is at the head
of the queue being dequeued by the worker loop; and no transition
modifies a job whose status is terminal. -/
theorem C3_job_lifecycle (now : Int) (s s1 : JobQueueState)
    (hreach : QueueReachable s) (hstep : QueueStep now s s1) :
    (∀ id j j1, lookupA id s.jobs = some j → lookupA id s1.jobs = some j1 →
      StatusAdvances j.status j1.status
      ∧ (∀ t, j.completedAt = some t → j1.completedAt = some t)
      ∧ (j.completedAt = none → j1.completedAt ≠ none →
          isTerminal j1.status = true ∧ j.status = JobStatus.processing
            ∧ j1.completedAt = some now)
      ∧ (j.status = JobStatus.pending → j1.status = JobStatus.processing →
          s.processingQueue.head? = some id)
      ∧ (isTerminal j.status = true → j1 = j))
    ∧ (∀ id j1, lookupA id s.jobs = none → lookupA id s1.jobs = some j1 →
        j1.status = JobStatus.pending ∧ j1.completedAt = none) := by
  have hinv := queueInv_reachable s hreach
  cases hstep with
  | create newId params hfresh =>
    rcases createJob_state s now newId params with heq | heq <;> rw [heq]
    · constructor
      · intro id j j1 hj hj1
        rw [hj] at hj1
        injection hj1 with hj1
        subst hj1
        exact job_unchanged_conclusions now _ j
      · intro id j1 hnone hsome
        rw [hnone] at hsome
        cases hsome
    · constructor
      · intro id j j1 hj hj1
        have hne : id ≠ newId := by
          rintro rfl
          rw [hj] at hfresh
          cases hfresh
        rw [show ({ s with
              jobs := insertA newId
                ⟨newId, JobStatus.pending, sanitizeScreenshotParams params,
                 none, none, now, none⟩ s.jobs
              processingQueue := s.processingQueue ++ [newId] } : JobQueueState).jobs
            = insertA newId
                ⟨newId, JobStatus.pending, sanitizeScreenshotParams params,
                 none, none, now, none⟩ s.jobs from rfl,
           lookupA_insertA_ne _ _ _ _ hne, hj] at hj1
        injection hj1 with hj1
        subst hj1
        exact job_unchanged_conclusions now _ j
      · intro id j1 hnone hsome
        rcases lookupA_insertA_cases hsome with ⟨heq2, rfl⟩ | ⟨_, h2⟩
        · exact ⟨rfl, rfl⟩
        · rw [hnone] at h2
          cases h2
  | start id rest job hq hcur hjob =>
    obtain ⟨j0, hj0, hj0p⟩ := hinv.queuePending id
      (by rw [hq]; exact List.mem_cons_self _ _)
    rw [hjob] at hj0
    injection hj0 with hj0
    subst hj0
    constructor
    · intro id1 j j1 hj hj1
      rcases lookupA_insertA_cases hj1 with ⟨heq2, rfl⟩ | ⟨_, h2⟩
      · subst heq2
        rw [hjob] at hj
        injection hj with hj
        subst hj
        refine ⟨Or.inr (Or.inl ⟨hj0p, rfl⟩), fun t ht => ht, ?_, ?_, ?_⟩
        · intro h1 h2
          exact absurd h1 h2
        · intro _ _
          rw [hq]
          rfl
        · intro hterm
          rw [hj0p] at hterm
          simp [isTerminal] at hterm
      · rw [hj] at h2
        injection h2 with h2
        subst h2
        exact job_unchanged_conclusions now _ j
    · intro id1 j1 hnone hsome
      rcases lookupA_insertA_cases hsome with ⟨heq2, rfl⟩ | ⟨_, h2⟩
      · subst heq2
        rw [hnone] at hjob
        cases hjob
      · rw [hnone] at h2
        cases h2
  | skip id rest hq hcur hjob =>
    constructor
    · intro id1 j j1 hj hj1
      rw [hj] at hj1
      injection hj1 with hj1
      subst hj1
      exact job_unchanged_conclusions now _ j
    · intro id1 j1 hnone hsome
      rw [hnone] at hsome
      cases hsome
  | finish id job cacheBytes capture hcur hjob =>
    obtain ⟨j0, hj0, hj0p⟩ := hinv.currentProcessing id hcur
    rw [hjob] at hj0
    injection hj0 with hj0
    subst hj0
    have hterm := processJobBody_terminal cacheBytes capture job now
    have hcompnone : job.completedAt = none := by
      have hiff := hinv.completedAtTerminal id job hjob
      rw [hj0p] at hiff
      by_contra hne
      have hbad := hiff.mp hne
      simp [isTerminal] at hbad
    constructor
    · intro id1 j j1 hj hj1
      rcases lookupA_insertA_cases hj1 with ⟨heq2, rfl⟩ | ⟨_, h2⟩
      · subst heq2
        rw [hjob] at hj
        injection hj with hj
        subst hj
        refine ⟨Or.inr (Or.inr ⟨hj0p, hterm.2.2⟩), ?_, ?_, ?_, ?_⟩
        · intro t ht
          rw [hcompnone] at ht
          cases ht
        · intro _ _
          exact ⟨hterm.1, hj0p, hterm.2.1⟩
        · intro hp _
          exact absurd (hp.symm.trans hj0p) (by decide)
        · intro ht
          rw [hj0p] at ht
          simp [isTerminal] at ht
      · rw [hj] at h2
        injection h2 with h2
        subst h2
        exact job_unchanged_conclusions now _ j
    · intro id1 j1 hnone hsome
      rcases lookupA_insertA_cases hsome with ⟨heq2, rfl⟩ | ⟨_, h2⟩
      · subst heq2
        rw [hnone] at hjob
        cases hjob
      · rw [hnone] at h2
        cases h2
  | idle hq hcur =>
    constructor
    · intro id1 j j1 hj hj1
      rw [hj] at hj1
      injection hj1 with hj1
      subst hj1
      exact job_unchanged_conclusions now _ j
    · intro id1 j1 hnone hsome
      rw [hnone] at hsome
      cases hsome
  | sweep =>
    constructor
    · intro id1 j j1 hj hj1
      have hj2 := lookupA_filter_some_of_nodup _ hinv.keysNodup hj1
      rw [hj] at hj2
      injection hj2 with hj2
      subst hj2
      exact job_unchanged_conclusions now _ _
    · intro id1 j1 hnone hsome
      have h2 := lookupA_filter_some_of_nodup _ hinv.keysNodup hsome
      rw [hnone] at h2
      cases h2

/-- Witness for C3: the creation step out of the fresh scheduler. -/
theorem C3_job_lifecycle_witness :
    QueueReachable initQueueState
    ∧ QueueStep 5 initQueueState (createJob initQueueState 5 "job1" okParams).2
    ∧ ((∀ id j j1, lookupA id initQueueState.jobs = some j →
          lookupA id (createJob initQueueState 5 "job1" okParams).2.jobs = some j1 →
          StatusAdvances j.status j1.status
          ∧ (∀ t, j.completedAt = some t → j1.completedAt = some t)
          ∧ (j.completedAt = none → j1.completedAt ≠ none →
              isTerminal j1.status = true ∧ j.status = JobStatus.processing
                ∧ j1.completedAt = some 5)
          ∧ (j.status = JobStatus.pending → j1.status = JobStatus.processing →
              initQueueState.processingQueue.head? = some id)
          ∧ (isTerminal j.status = true → j1 = j))
       ∧ (∀ id j1, lookupA id initQueueState.jobs = none →
            lookupA id (createJob initQueueState 5 "job1" okParams).2.jobs = some j1 →
            j1.status = JobStatus.pending ∧ j1.completedAt = none)) :=
  ⟨QueueReachable.init,
   QueueStep.create 5 initQueueState "job1" okParams rfl,
   C3_job_lifecycle 5 initQueueState _ QueueReachable.init
     (QueueStep.create 5 initQueueState "job1" okParams rfl)⟩
